import Mathlib

/-!
# rsh: a shallow embedding of `src/rsh.c`

C strings are modelled by `String` (their characters up to the terminator), a
`NULL` pointer by `none`, and an argument vector `char **args` by the list of
its entries before the terminating `NULL`.  Library calls that only fail on
resource exhaustion (`malloc`, `strdup`, `pipe`, `fork`, `dup2`) are taken to
succeed.  Undefined behaviour of the C program (a `NULL` passed to `strcmp` or
`strdup`, a write past a fixed array) is the result `Res.undef`.
-/

namespace Rsh

/-! ## Data model -/

/-- History utility struct.  `recent_cmds` is the allocated buffer, one slot per
element (`none` is a `NULL` slot); the field `size` of the C struct is the
allocated length of that buffer, see `History.size`. -/
structure History where
  recent_cmds : List (Option String)
  count : Nat
  startIdx : Nat
deriving DecidableEq, Repr

/-- The `size` field: the number of slots of `recent_cmds` (`calloc(size, ..)` in
`init_history` and `resize_history`, which are the only writers of both). -/
def History.size (h : History) : Nat := h.recent_cmds.length

/-- Read `history.recent_cmds[i]`. -/
def History.slot (h : History) (i : Nat) : Option String := h.recent_cmds.getD i none

/-- The stored lines in the order `update_history` and `resize_history` address
them: `recent_cmds[0]`, ..., `recent_cmds[count - 1]` (most recent first). -/
def History.entries (h : History) : List (Option String) := (List.range h.count).map h.slot

/-- The stored lines in the order `rsh_history` lists and replays them:
`recent_cmds[(startIdx + i) % size]` for `i < count`. -/
def History.listed (h : History) : List (Option String) :=
  (List.range h.count).map (fun i => h.slot ((h.startIdx + i) % h.size))

def history_size_init : Nat := 5

/-- The global `history = {NULL, history_size_init, 0, 0}` after `init_history`. -/
def init_history : History :=
  { recent_cmds := List.replicate history_size_init none, count := 0, startIdx := 0 }

/-- Shell variables: the packed prefix `0 .. count - 1` of the parallel arrays
`keys[100]` / `values[100]`, as a list of pairs; `count` is its length. -/
structure ShellVars where
  vars : List (String × String)
deriving DecidableEq, Repr

def ShellVars.count (sv : ShellVars) : Nat := sv.vars.length

/-- Interpreter state: the process environment, `shellVars` and `history`. -/
structure Shell where
  env : List (String × String)
  shellVars : ShellVars
  history : History
deriving DecidableEq, Repr

/-- Status reported by one `waitpid` call. -/
inductive WStatus where
  | exited (code : Nat)
  | signaled (sig : Nat)
  | stopped (sig : Nat)
deriving DecidableEq, Repr

/-- What the operating system answers: whether `chdir` succeeds on a directory and
the statuses that successive `waitpid` calls on the single child report. -/
structure OS where
  chdir_ok : String → Bool
  wstatus : List WStatus

/-- Observable operations, in program order.  Operations of a forked child are
listed right after its `fork` and carry the child's number. -/
inductive Event where
  | print (msg : String)
  | chdir (dir : String)
  | pipe (i : Nat)
  | fork (child : Nat)
  | dup2 (child : Nat) (fd : Nat) (target : Nat)
  | close (who : Option Nat) (fd : Nat)
  | execvp (child : Nat) (argv : List String)
  | wait
  | waitpid (status : WStatus)
deriving DecidableEq, Repr

/-- Result of running a piece of the interpreter. -/
inductive Res (α : Type) where
  | ok (val : α)
  | exited (status : Int)
  | undef
  | diverge
deriving DecidableEq, Repr

/-- Return status, state afterwards and operations performed. -/
abbrev Out : Type := Int × Shell × List Event

/-! ## Environment -/

def getenv : List (String × String) → String → Option String
  | [], _ => none
  | (k, v) :: rest, name => if k = name then some v else getenv rest name

/-- Model of `setenv(name, value, 1)`. -/
def setenv : List (String × String) → String → String → List (String × String)
  | [], name, value => [(name, value)]
  | (k, v) :: rest, name, value =>
    if k = name then (k, value) :: rest else (k, v) :: setenv rest name value

def unsetenv (env : List (String × String)) (name : String) : List (String × String) :=
  env.filter (fun kv => decide (kv.1 ≠ name))

/-! ## Variable resolver and tokenizer -/

/-- The `for` loop of `variable_sub` over the local table. -/
def lookup_local : List (String × String) → String → Option String
  | [], _ => none
  | (k, v) :: rest, var_name => if k = var_name then some v else lookup_local rest var_name

def variable_sub (st : Shell) (var_name : String) : Option String :=
  match getenv st.env var_name with
  | some value => some value
  | none => lookup_local st.shellVars.vars var_name

/-- One call of `strtok` on the text not yet consumed: skip leading delimiters,
return the token up to the next delimiter and the text after that delimiter. -/
def strtok (delims : List Char) (s : List Char) : Option (List Char × List Char) :=
  match s.dropWhile (fun c => decide (c ∈ delims)) with
  | [] => none
  | c :: cs =>
    some ((c :: cs).takeWhile (fun x => decide (x ∉ delims)),
          ((c :: cs).dropWhile (fun x => decide (x ∉ delims))).drop 1)

/-- The delimiter string `" \t\r\n\a"`. -/
def delimiters : List Char := [' ', '\t', '\r', '\n', '\x07']

/-- The `while (arg != NULL)` loop of `parse_input`; `s` is the text `strtok` has
not consumed yet. -/
def parse_loop (st : Shell) : Nat → List Char → List String
  | 0, _ => []
  | fuel + 1, s =>
    match strtok delimiters s with
    | none => []
    | some (arg, rest) =>
      match arg with
      | '$' :: var_name =>
        match variable_sub st (String.mk var_name) with
        | some var_value =>
          if var_value.length > 0 then var_value :: parse_loop st fuel rest
          else parse_loop st fuel rest
        | none => parse_loop st fuel rest
      | _ => String.mk arg :: parse_loop st fuel rest

def parse_input (st : Shell) (input : String) : List String :=
  parse_loop st (input.length + 1) input.toList

/-! ## History store -/

/-- The loop `for (i = n; i > 0; --i) recent_cmds[i] = recent_cmds[i - 1]`. -/
def shift_cmds : List (Option String) → Nat → List (Option String)
  | cmds, 0 => cmds
  | cmds, i + 1 => shift_cmds (cmds.set (i + 1) (cmds.getD i none)) i

def update_history (h : History) (command : String) : History :=
  if command = "" then h
  else if h.count > 0 ∧ h.slot 0 = some command then h
  else if h.count = h.size then
    { h with recent_cmds := (shift_cmds h.recent_cmds (h.size - 1)).set 0 (some command) }
  else
    { h with recent_cmds := (shift_cmds h.recent_cmds h.count).set 0 (some command),
             count := h.count + 1 }

/-- The loop `for (i = 0; i < n; i++) newRecentCmds[i] = strdup(recent_cmds[i])`. -/
def copy_cmds (old : List (Option String)) (fresh : List (Option String)) :
    Nat → List (Option String)
  | 0 => fresh
  | i + 1 => (copy_cmds old fresh i).set i (old.getD i none)

def resize_history (h : History) (newSize : Int) : History :=
  if newSize < 0 then h
  else
    let currentCopySize := if h.count < newSize.toNat then h.count else newSize.toNat
    { recent_cmds := copy_cmds h.recent_cmds (List.replicate newSize.toNat none) currentCopySize,
      count := currentCopySize,
      startIdx := h.startIdx }

/-! ## `atoi` -/

def isspace (c : Char) : Bool :=
  c = ' ' || c = '\t' || c = '\n' || c = '\x0b' || c = '\x0c' || c = '\r'

/-- Value of a run of decimal digits, most significant first. -/
def digits_value (ds : List Char) : Nat :=
  ds.foldl (fun acc c => 10 * acc + (c.toNat - 48)) 0

/-- Model of `atoi`: leading white space, an optional sign, then the longest run of
digits.  A value that does not fit an `int` is undefined behaviour (`none`). -/
def atoi (s : String) : Option Int :=
  let body := s.toList.dropWhile isspace
  let v : Int :=
    match body with
    | '-' :: r => - (digits_value (r.takeWhile Char.isDigit) : Int)
    | '+' :: r => (digits_value (r.takeWhile Char.isDigit) : Int)
    | r => (digits_value (r.takeWhile Char.isDigit) : Int)
  if -2147483648 ≤ v ∧ v ≤ 2147483647 then some v else none

/-! ## Built-in registry -/

/-- The handlers `builtin_cmds[i].func`. -/
inductive BuiltIn where
  | rsh_history
  | rsh_cd
  | rsh_exit
  | rsh_export
  | rsh_local
  | rsh_vars
deriving DecidableEq, Repr

def builtin_cmds : List (String × BuiltIn) :=
  [("history", .rsh_history), ("cd", .rsh_cd), ("exit", .rsh_exit),
   ("export", .rsh_export), ("local", .rsh_local), ("vars", .rsh_vars)]

/-- The loop of `is_builtin_command` over the rest of the table. -/
def is_builtin_loop (cmd : String) : List (String × BuiltIn) → Int
  | [] => 0
  | (name, _) :: rest => if cmd = name then 1 else is_builtin_loop cmd rest

def is_builtin_command (cmd : String) : Int := is_builtin_loop cmd builtin_cmds

/-- The built-in check loop of `execute_input`: the handler of the first table row
whose name equals `args[0]`. -/
def find_builtin (cmd : String) : List (String × BuiltIn) → Option BuiltIn
  | [] => none
  | (name, func) :: rest => if cmd = name then some func else find_builtin cmd rest

/-! ## Built-in handlers -/

def rsh_exit (_st : Shell) (_args : List String) : Res Out := .exited 0

def rsh_cd (os : OS) (st : Shell) (args : List String) : Res Out :=
  match args[1]? with
  | none => .ok (1, st, [.print "rsh: expected argument to \"cd\"\n"])
  | some dir =>
    if os.chdir_ok dir then .ok (1, st, [.chdir dir])
    else .ok (1, st, [.chdir dir, .print "Error while using cd!\n"])

def rsh_export (st : Shell) (args : List String) : Res Out :=
  match args[1]? with
  | none => .ok (1, st, [.print "export: expected argument in the form VAR=value\n"])
  | some a1 =>
    match strtok ['='] a1.toList with
    | none => .ok (1, st, [.print "export: invalid format. Use VAR=value\n"])
    | some (name, rest) =>
      match strtok [] rest with
      | none => .ok (1, { st with env := unsetenv st.env (String.mk name) }, [])
      | some (value, _) =>
        .ok (1, { st with env := setenv st.env (String.mk name) (String.mk value) }, [])

/-- Index of the first row whose key equals `key` (the `strcmp` loops of `rsh_local`). -/
def find_key (key : String) : List (String × String) → Option Nat
  | [] => none
  | (k, _) :: rest => if k = key then some 0 else (find_key key rest).map (· + 1)

/-- Assignment `values[i] = strdup(value)`; the key of row `i` stays. -/
def set_value : List (String × String) → Nat → String → List (String × String)
  | [], _, _ => []
  | (k, _) :: rest, 0, value => (k, value) :: rest
  | kv :: rest, i + 1, value => kv :: set_value rest i value

def rsh_local (st : Shell) (args : List String) : Res Out :=
  match args[1]? with
  | none => .ok (1, st, [.print "local: expected argument in the form VAR=value\n"])
  | some a1 =>
    match strtok ['='] a1.toList with
    | none => .ok (1, st, [.print "local: invalid format. Use VAR=value\n"])
    | some (keyChars, rest) =>
      let key := String.mk keyChars
      let value : Option String := (strtok ['='] rest).map (fun p => String.mk p.1)
      let vars := st.shellVars.vars
      -- clear through a= : the row is removed and the rows after it shift down
      match (if value = none then find_key key vars else none) with
      | some i => .ok (1, { st with shellVars := ⟨vars.eraseIdx i⟩ }, [])
      | none =>
        -- check for duplicate; overwrite
        match find_key key vars with
        | some i =>
          match value with
          | some v => .ok (1, { st with shellVars := ⟨set_value vars i v⟩ }, [])
          | none => .undef
        | none =>
          if vars.length = 100 then
            .ok (1, st, [.print "local: maximum number of variables reached\n"])
          else
            -- insert; `strdup(value)` with `value == NULL` is undefined
            match value with
            | some v => .ok (1, { st with shellVars := ⟨vars ++ [(key, v)]⟩ }, [])
            | none => .undef

def rsh_vars (st : Shell) (_args : List String) : Res Out :=
  .ok (1, st, st.shellVars.vars.map (fun kv => Event.print (kv.1 ++ "=" ++ kv.2 ++ "\n")))

/-- The display loop of `rsh_history` over the indices `i = 0, 1, ..`, with its
`if (i == history.size) break;`. -/
def display_loop (h : History) : List Nat → Res (List Event)
  | [] => .ok []
  | i :: rest =>
    if i = h.size then .ok []
    else
      match h.slot ((h.startIdx + i) % h.size) with
      | none => .undef
      | some cmd =>
        match display_loop h rest with
        | .ok evs => .ok (Event.print (toString (i + 1) ++ ") " ++ cmd) :: evs)
        | r => r

/-- Handler `rsh_history`; `exec` is the call back into `execute_input`. -/
def rsh_history (exec : Shell → List String → Res Out) (st : Shell) (args : List String) :
    Res Out :=
  match args[1]? with
  | some a1 =>
    match (if a1 = "set" then args[2]? else none) with
    | some a2 =>
      match atoi a2 with
      | none => .undef
      | some newSize =>
        if a2 = "0" ∨ newSize ≠ 0 then
          .ok (1, { st with history := resize_history st.history newSize }, [])
        else .ok (-1, st, [.print "Numeric Only!\n"])
    | none =>
      match atoi a1 with
      | none => .undef
      | some index =>
        if index > 0 ∧ index ≤ (st.history.count : Int) then
          if st.history.size = 0 then .undef
          else
            let pos := (st.history.startIdx + index.toNat - 1) % st.history.size
            match st.history.slot pos with
            | none => .undef
            | some commandToExecute =>
              let argv := parse_input st commandToExecute
              match exec st argv with
              | .ok (_, st1, evs) => .ok (1, st1, evs)
              | r => r
        else .ok (-1, st, [.print "Numeric Only!\n"])
  | none =>
    match display_loop st.history (List.range st.history.count) with
    | .ok evs => .ok (1, st, evs)
    | .exited c => .exited c
    | .undef => .undef
    | .diverge => .diverge

/-! ## Pipeline builder -/

/-- Number of slots of the stage buffer `char *arg[256]`. -/
def stage_slots : Nat := 256

/-- The inner loop `while (strcmp(args[argIdx], "|") != 0)` of `execute_pipes`,
started with the stage collected so far; returns the stage and `argIdx` at loop
exit.  `args[argIdx]` is `NULL` (or past the vector) when `argIdx` is not below
the length, and `arg[k++] = ..` needs `k < 256`. -/
def collect_stage (args : List String) : Nat → Nat → List String → Res (List String × Nat)
  | 0, _, _ => .diverge
  | fuel + 1, argIdx, arg =>
    match args[argIdx]? with
    | none => .undef
    | some a =>
      if a = "|" then .ok (arg, argIdx)
      else if stage_slots ≤ arg.length then .undef
      else if argIdx + 1 < args.length then collect_stage args fuel (argIdx + 1) (arg ++ [a])
      else .ok (arg ++ [a], argIdx + 1)

/-- What child number `argCount` does between `fork` and the end of its image. -/
def child_events (num_pipes argCount : Nat) (arg : List String) : List Event :=
  (if argCount ≠ 0 then [Event.dup2 argCount ((argCount - 1) * 2) 0] else [])
    ++ (if argCount < num_pipes then [Event.dup2 argCount (argCount * 2 + 1) 1] else [])
    ++ (List.range (2 * num_pipes)).map (fun i => Event.close (some argCount) i)
    ++ [Event.execvp argCount arg]

/-- The loop `while (args[argCount] != NULL && argCount <= num_pipes)`. -/
def stage_loop (args : List String) (num_pipes : Nat) : Nat → Nat → Nat → Res (List Event)
  | 0, _, _ => .diverge
  | fuel + 1, argCount, argIdx =>
    if argCount < args.length ∧ argCount ≤ num_pipes then
      match collect_stage args (args.length + 1) argIdx [] with
      | .ok (arg, idx) =>
        -- `arg[k] = NULL` needs `k < 256`
        if stage_slots ≤ arg.length then .undef
        else
          match stage_loop args num_pipes fuel (argCount + 1) (idx + 1) with
          | .ok evs => .ok (Event.fork argCount :: child_events num_pipes argCount arg ++ evs)
          | r => r
      | .exited c => .exited c
      | .undef => .undef
      | .diverge => .diverge
    else .ok []

def execute_pipes (args : List String) (num_pipes : Nat) : Res (List Event) :=
  match stage_loop args num_pipes (num_pipes + 2) 0 0 with
  | .ok evs =>
    .ok ((List.range num_pipes).map Event.pipe
          ++ evs
          ++ (List.range (2 * num_pipes)).map (fun i => Event.close none i)
          ++ List.replicate (num_pipes + 1) Event.wait)
  | r => r

/-! ## Dispatcher -/

/-- The scan `for (i = 0; args[i] != NULL; i++) if (strcmp(args[i], "|") == 0) pipe_count++`,
started with `pipe_count` counted so far. -/
def count_pipes : List String → Nat → Nat
  | [], pipe_count => pipe_count
  | a :: rest, pipe_count => count_pipes rest (if a = "|" then pipe_count + 1 else pipe_count)

/-- The loop `do waitpid(..) while (!WIFEXITED(wStatus) && !WIFSIGNALED(wStatus))` over
the statuses the calls report; `none` when no call reports termination. -/
def wait_loop : List WStatus → Option (List Event)
  | [] => none
  | .stopped sig :: rest => (wait_loop rest).map (fun evs => Event.waitpid (.stopped sig) :: evs)
  | w :: _ => some [Event.waitpid w]

/-- The single external command path of `execute_input`: fork, `execvp` in the
child, wait in the parent, `return 0`. -/
def run_external (os : OS) (st : Shell) (args : List String) : Res Out :=
  match wait_loop os.wstatus with
  | none => .diverge
  | some waits => .ok (0, st, [Event.fork 0, Event.execvp 0 args] ++ waits)

/-- Call of `builtin_cmds[i].func(args)`. -/
def run_builtin (exec : Shell → List String → Res Out) (os : OS) (st : Shell)
    (args : List String) : BuiltIn → Res Out
  | .rsh_history => rsh_history exec st args
  | .rsh_cd => rsh_cd os st args
  | .rsh_exit => rsh_exit st args
  | .rsh_export => rsh_export st args
  | .rsh_local => rsh_local st args
  | .rsh_vars => rsh_vars st args

/-- Dispatcher `execute_input`; the fuel bounds the depth of replays nested through
`rsh_history`. -/
def execute_input : Nat → OS → Shell → List String → Res Out
  | 0, _, _, _ => .diverge
  | fuel + 1, os, st, args =>
    match args with
    | [] => .ok (1, st, [.print "Empty input!\n"])
    | a0 :: _ =>
      let pipe_count := count_pipes args 0
      if pipe_count > 0 then
        match execute_pipes args pipe_count with
        | .ok evs => .ok (0, st, evs)
        | .exited c => .exited c
        | .undef => .undef
        | .diverge => .diverge
      else
        match find_builtin a0 builtin_cmds with
        | some func => run_builtin (execute_input fuel os) os st args func
        | none => run_external os st args

/-- One iteration of the `do .. while (1)` loop of `main_rsh` on the line `input`
that `read_input` returned. -/
def main_rsh_iter (fuel : Nat) (os : OS) (st : Shell) (input : String) :
    Res (Shell × List Event) :=
  let argv := parse_input st input
  match execute_input fuel os st argv with
  | .ok (_, st1, evs) =>
    -- don't add built-ins to history
    match argv with
    | [] => .undef
    | a0 :: _ =>
      if is_builtin_command a0 = 0 ∧ st1.history.size ≠ 0 then
        .ok ({ st1 with history := update_history st1.history input }, Event.print "rsh> " :: evs)
      else .ok (st1, Event.print "rsh> " :: evs)
  | .exited c => .exited c
  | .undef => .undef
  | .diverge => .diverge

/-! ## Reference tokenizer (from the specification) -/

/-- The white-space delimiter set of the specification: space, tab, carriage
return, newline and bell. -/
def spec_is_delimiter (c : Char) : Bool :=
  c = ' ' || c = '\t' || c = '\r' || c = '\n' || c = '\x07'

/-- Split on maximal runs of delimiters: the non-empty pieces between delimiters. -/
def spec_split (line : List Char) : List (List Char) :=
  (line.splitOnP spec_is_delimiter).filter (fun tok => decide (tok ≠ []))

/-- What one token contributes: a token beginning with `$` contributes the resolver's
value for the rest of the token when that value exists and is non-empty, and nothing
otherwise; any other token contributes itself. -/
def spec_expand (resolve : String → Option String) (tok : List Char) : Option String :=
  match tok with
  | '$' :: name =>
    match resolve (String.mk name) with
    | some value => if value = "" then none else some value
    | none => none
  | _ => some (String.mk tok)

/-- Reference definition of the tokenizer. -/
def spec_tokenize (resolve : String → Option String) (line : String) : List String :=
  (spec_split line.toList).filterMap (spec_expand resolve)

/-! ## Sequences of `local` commands and their reference map -/

/-- The two forms of the `local` command: `local NAME=value` and `local NAME=`. -/
inductive LocalCmd where
  | set (name value : String)
  | remove (name : String)
deriving DecidableEq, Repr

/-- The argument vector of a `local` command. -/
def LocalCmd.args : LocalCmd → List String
  | .set name value => ["local", name ++ "=" ++ value]
  | .remove name => ["local", name ++ "="]

/-- Run a sequence of `local` commands through `rsh_local`. -/
def run_locals : Shell → List LocalCmd → Res Shell
  | st, [] => .ok st
  | st, c :: cs =>
    match rsh_local st c.args with
    | .ok (_, st1, _) => run_locals st1 cs
    | .exited code => .exited code
    | .undef => .undef
    | .diverge => .diverge

/-- Reference map, one step: a set binds the name to the value, replacing any older
binding; a remove drops the binding.  The order of the bindings carries no meaning. -/
def spec_local_step (m : List (String × String)) : LocalCmd → List (String × String)
  | .set name value => m.filter (fun kv => decide (kv.1 ≠ name)) ++ [(name, value)]
  | .remove name => m.filter (fun kv => decide (kv.1 ≠ name))

/-- Reference map after a sequence of commands. -/
def spec_local_run (m : List (String × String)) (cmds : List LocalCmd) :
    List (String × String) :=
  cmds.foldl spec_local_step m

/-- Names are non-empty and have no `=`; values of a set are non-empty and have no `=`. -/
def LocalCmd.plain : LocalCmd → Bool
  | .set name value =>
    decide (name ≠ "") && decide ('=' ∉ name.toList)
      && decide (value ≠ "") && decide ('=' ∉ value.toList)
  | .remove name => decide (name ≠ "") && decide ('=' ∉ name.toList)

/-- The command sequences considered: every command is plain, every remove names a key
bound at that point, and the reference map never has more than 100 bindings. -/
def spec_admissible : List (String × String) → List LocalCmd → Bool
  | _, [] => true
  | m, c :: cs =>
    c.plain
      && (match c with
          | .remove name => decide (name ∈ m.map Prod.fst)
          | .set _ _ => true)
      && decide ((spec_local_step m c).length ≤ 100)
      && spec_admissible (spec_local_step m c) cs

/-! ## Vocabulary of the statements -/

/-- The names of the built-in registry. -/
def builtin_names : List String := ["history", "cd", "exit", "export", "local", "vars"]

/-- How `execute_input` returns after `execute_pipes`: status 0, state untouched. -/
def after_pipes (st : Shell) : Res (List Event) → Res Out
  | .ok evs => .ok (0, st, evs)
  | .exited c => .exited c
  | .undef => .undef
  | .diverge => .diverge

/-- How one iteration of `main_rsh` ends when `argv[0]` names a built-in: the state
the dispatch left, with no call of `update_history`. -/
def after_dispatch : Res Out → Res (Shell × List Event)
  | .ok (_, st1, evs) => .ok (st1, Event.print "rsh> " :: evs)
  | .exited c => .exited c
  | .undef => .undef
  | .diverge => .diverge

/-- The children forked, in fork order. -/
def forked (evs : List Event) : List Nat :=
  evs.filterMap (fun e => match e with
    | .fork child => some child
    | _ => none)

/-- The `execvp` calls, in order: the child and its argument vector. -/
def execed (evs : List Event) : List (Nat × List String) :=
  evs.filterMap (fun e => match e with
    | .execvp child argv => some (child, argv)
    | _ => none)

/-- The operations of the stage loop for the stages `stages`, the first of them being
stage number `i`. -/
def stage_events (num_pipes : Nat) : Nat → List (List String) → List Event
  | _, [] => []
  | i, s :: rest =>
    Event.fork i :: child_events num_pipes i s ++ stage_events num_pipes (i + 1) rest

/-! ## Sequences of record steps -/

/-- Record the lines in order, each through `update_history`. -/
def record_all (h : History) (lines : List String) : History :=
  lines.foldl update_history h

/-! ## Reachable states of the command loop -/

/-- Whether the iteration of `main_rsh` on the line `input` reaches the call
`update_history(inputCpy)`. -/
def main_rsh_recorded (fuel : Nat) (os : OS) (st : Shell) (input : String) : Bool :=
  match execute_input fuel os st (parse_input st input) with
  | .ok (_, st1, _) =>
    match parse_input st input with
    | [] => false
    | a0 :: _ => decide (is_builtin_command a0 = 0 ∧ st1.history.size ≠ 0)
  | _ => false

/-- The states the command loop reaches from process start (any environment, no local
variable, the initial history), one returning iteration of `main_rsh` at a time,
together with the line most recently passed to `update_history`, if any. -/
inductive Reachable : Shell → Option String → Prop where
  | start (env : List (String × String)) :
      Reachable { env := env, shellVars := ⟨[]⟩, history := init_history } none
  | step (fuel : Nat) (os : OS) (st : Shell) (last : Option String) (line : String)
      (st1 : Shell) (evs : List Event) (last1 : Option String) :
      Reachable st last → main_rsh_iter fuel os st line = .ok (st1, evs) →
      last1 = (if main_rsh_recorded fuel os st line = true then some line else last) →
      Reachable st1 last1

/-- Bounds of a history: start index 0, `count ≤ size`, and a stored line in each of
the slots `0 .. count - 1`. -/
def history_wf (h : History) : Prop :=
  h.startIdx = 0 ∧ h.count ≤ h.size ∧ ∀ x ∈ h.entries, x ≠ none

/-! ## The descriptor law of a pipeline stage (from the specification) -/

/-- Slot in `pipe_fds` of the read end of pipe `i` (`pipe(pipe_fds + i * 2)`). -/
def read_end (i : Nat) : Nat := 2 * i

/-- Slot in `pipe_fds` of the write end of pipe `i`. -/
def write_end (i : Nat) : Nat := 2 * i + 1

/-- The descriptor law for one stage: the child is forked, redirects standard input to
the read end of the pipe before it when it is not the first stage, redirects standard
output to the write end of its own pipe when it is not the last stage, closes all
`2 * p` descriptors, and then calls `execvp` with the stage. -/
def spec_stage_ops (p : Nat) (x : Nat × List String) : List Event :=
  [Event.fork x.1]
    ++ (if 0 < x.1 then [Event.dup2 x.1 (read_end (x.1 - 1)) 0] else [])
    ++ (if x.1 < p then [Event.dup2 x.1 (write_end x.1) 1] else [])
    ++ (List.range (2 * p)).map (fun fd => Event.close (some x.1) fd)
    ++ [Event.execvp x.1 x.2]

/-! ## Concrete inputs used by the examples -/

/-- The state at process start: empty environment, no local variable, initial history. -/
def shell_init : Shell := { env := [], shellVars := ⟨[]⟩, history := init_history }

/-- A shell state with `HOME` in the environment, the local variable `X=5` and the
initial history. -/
def shell0 : Shell :=
  { env := [("HOME", "/root")], shellVars := ⟨[("X", "5")]⟩, history := init_history }

/-- An operating system where every `chdir` succeeds and the child exits with status
0 at the first `waitpid`. -/
def os_ok : OS := { chdir_ok := fun _ => true, wstatus := [.exited 0] }

/-- An operating system where the child is reported stopped once and then exits with
status 3. -/
def os_exit3 : OS := { chdir_ok := fun _ => true, wstatus := [.stopped 19, .exited 3] }

/-- A history of capacity 3 holding `b` (most recent) and `a`. -/
def hist_ba : History := { recent_cmds := [some "b", some "a", none], count := 2, startIdx := 0 }

/-- The history `[c1, c2, c3, c4, c5]` at capacity 5. -/
def hist5 : History :=
  { recent_cmds := [some "c1", some "c2", some "c3", some "c4", some "c5"], count := 5, startIdx := 0 }

/-- An empty history of capacity 2. -/
def hist_cap2 : History := { recent_cmds := [none, none], count := 0, startIdx := 0 }

/-- The state `shell0` with the history `[b, a]` of capacity 3. -/
def shell_ba : Shell := { shell0 with history := hist_ba }

/-- The state after the line `a` at process start. -/
def shell_a : Shell :=
  { env := [], shellVars := ⟨[]⟩,
    history := { recent_cmds := [some "a\n", none, none, none, none], count := 1, startIdx := 0 } }

/-- The state after the lines `a` and `b` at process start. -/
def shell_ab : Shell :=
  { env := [], shellVars := ⟨[]⟩,
    history :=
      { recent_cmds := [some "b\n", some "a\n", none, none, none], count := 2, startIdx := 0 } }

/-- The state at process start after `local X=|`. -/
def shell_bar : Shell := { shell_init with shellVars := ⟨[("X", "|")]⟩ }

/-- The state at process start with `FOO=1` and `value=2` in the environment. -/
def shell_foo : Shell := { shell_init with env := [("FOO", "1"), ("value", "2")] }

/-- A pipeline whose first stage has 1000000 tokens: `a a ... a | b`. -/
def huge_stage_args : List String := List.replicate 1000000 "a" ++ ["|", "b"]

/-- A pipeline whose middle stage has 1000000 tokens: `cmd1 | a a ... a | cmd3`. -/
def huge_middle_args : List String :=
  ["cmd1", "|"] ++ (List.replicate 1000000 "a" ++ ["|", "cmd3"])

/-! ## Theorems -/

/-! ### History store: the record step -/

theorem shift_cmds_length (n : Nat) :
    ∀ l : List (Option String), (shift_cmds l n).length = l.length := by
  induction n with
  | zero => intro l; rfl
  | succ n ih => intro l; simp [shift_cmds, ih]

theorem shift_cmds_getElem? (n : Nat) :
    ∀ (l : List (Option String)) (j : Nat), n < l.length →
      (shift_cmds l n)[j]? = if 0 < j ∧ j ≤ n then l[j - 1]? else l[j]? := by
  induction n with
  | zero =>
    intro l j _
    have h : ¬ (0 < j ∧ j ≤ 0) := by omega
    rw [shift_cmds, if_neg h]
  | succ n ih =>
    intro l j hn
    have hlen : n < (l.set (n + 1) (l.getD n none)).length := by simp; omega
    rw [shift_cmds, ih _ j hlen]
    by_cases hj : 0 < j ∧ j ≤ n
    · have h1 : 0 < j ∧ j ≤ n + 1 := ⟨hj.1, by omega⟩
      rw [if_pos hj, if_pos h1, List.getElem?_set_ne (by omega)]
    · rw [if_neg hj]
      by_cases hj1 : j = n + 1
      · subst hj1
        have hn' : n < l.length := by omega
        simp [List.getElem?_set, hn, List.getD_eq_getElem?_getD, List.getElem?_eq_getElem hn']
      · have h1 : ¬ (0 < j ∧ j ≤ n + 1) := by omega
        rw [if_neg h1, List.getElem?_set_ne (by omega)]

theorem shift_set_take (l : List (Option String)) (n : Nat) (x : Option String) (hn : n < l.length) :
    ((shift_cmds l n).set 0 x).take (n + 1) = x :: l.take n := by
  apply List.ext_getElem?
  intro j
  rcases j with _ | j
  · have : 0 < (shift_cmds l n).length := by rw [shift_cmds_length]; omega
    simp [List.getElem?_take, List.getElem?_set, this]
  · simp only [List.getElem?_cons_succ, List.getElem?_take]
    by_cases hj : j < n
    · have : j + 1 < n + 1 := by omega
      rw [if_pos this, if_pos hj, List.getElem?_set_ne (by omega), shift_cmds_getElem? n l _ hn]
      simp; intro; omega
    · have : ¬ (j + 1 < n + 1) := by omega
      rw [if_neg this, if_neg hj]


theorem entries_eq_take (h : History) (hc : h.count ≤ h.size) :
    h.entries = h.recent_cmds.take h.count := by
  unfold History.entries History.slot History.size at *
  apply List.ext_getElem?
  intro j
  by_cases hj : j < h.count
  · have hjl : j < h.recent_cmds.length := by omega
    simp [List.getElem?_take, hj, List.getElem?_range, List.getD_eq_getElem?_getD,
      List.getElem?_eq_getElem hjl]
  · simp [List.getElem?_take, hj, List.getElem?_range]
    omega

theorem listed_eq_entries (h : History) (hs : h.startIdx = 0) (hc : h.count ≤ h.size) :
    h.listed = h.entries := by
  unfold History.listed History.entries
  apply List.map_congr_left
  intro i hi
  have : i < h.size := by
    have := List.mem_range.mp hi
    omega
  rw [hs, Nat.zero_add, Nat.mod_eq_of_lt this]

theorem update_history_entries (h : History) (line : String)
    (hcap : 1 ≤ h.size) (hcount : h.count ≤ h.size) (hline : line ≠ "")
    (hnew : h.count = 0 ∨ h.slot 0 ≠ some line) :
    (update_history h line).entries = (some line :: h.entries).take h.size
    ∧ (update_history h line).size = h.size
    ∧ (update_history h line).count = (if h.count = h.size then h.count else h.count + 1)
    ∧ (update_history h line).startIdx = h.startIdx := by
  have hdup : ¬ (h.count > 0 ∧ h.slot 0 = some line) := by
    rintro ⟨h1, h2⟩
    rcases hnew with h3 | h3
    · omega
    · exact h3 h2
  unfold update_history
  rw [if_neg hline, if_neg hdup]
  unfold History.size at hcap hcount
  by_cases hfull : h.count = h.size
  · rw [if_pos hfull]
    unfold History.size at hfull
    have hlt : h.recent_cmds.length - 1 < h.recent_cmds.length := by omega
    have hk := shift_set_take h.recent_cmds (h.recent_cmds.length - 1) (some line) hlt
    have e1 : h.recent_cmds.length - 1 + 1 = h.recent_cmds.length := by omega
    rw [e1] at hk
    refine ⟨?_, ?_, ?_, ?_⟩
    · rw [entries_eq_take _ (by simp [History.size, shift_cmds_length, hfull]),
        entries_eq_take h hcount]
      simp only [History.size, hfull]
      rw [hk]
      obtain ⟨m, hm⟩ : ∃ m, h.recent_cmds.length = m + 1 := ⟨h.recent_cmds.length - 1, by omega⟩
      rw [hm]
      simp [List.take_take]
    · simp [History.size, shift_cmds_length]
    · simp [History.size, hfull]
    · simp
  · rw [if_neg hfull]
    unfold History.size at hfull
    have hlt : h.count < h.recent_cmds.length := by omega
    have hk := shift_set_take h.recent_cmds h.count (some line) hlt
    refine ⟨?_, ?_, ?_, ?_⟩
    · rw [entries_eq_take _ (by simp [History.size, shift_cmds_length]; omega),
        entries_eq_take h hcount]
      simp only [History.size]
      rw [hk]
      symm
      apply List.take_of_length_le
      simp
      omega
    · simp [History.size, shift_cmds_length]
    · simp [History.size, hfull]
    · simp


/-- C1: for a history with capacity at least 1 and `count ≤ capacity`, recording a
non-empty line that differs from the most recent entry (or into an empty store)
leaves as stored entries exactly the first `capacity` elements of
`line :: old entries`; capacity and start index are unchanged; `count` is unchanged
when the store was full (the oldest entry is evicted) and grows by one otherwise.
With start index 0 the same holds for the entries in the order `rsh_history`
lists them. -/
theorem update_history_record (h : History) (line : String)
    (hcap : 1 ≤ h.size) (hcount : h.count ≤ h.size) (hline : line ≠ "")
    (hnew : h.count = 0 ∨ h.slot 0 ≠ some line) :
    (update_history h line).entries = (some line :: h.entries).take h.size
    ∧ (update_history h line).size = h.size
    ∧ (update_history h line).count = (if h.count = h.size then h.count else h.count + 1)
    ∧ (update_history h line).startIdx = h.startIdx
    ∧ (h.startIdx = 0 →
        (update_history h line).listed = (some line :: h.listed).take h.size) := by
  obtain ⟨he, hs, hc, hi⟩ := update_history_entries h line hcap hcount hline hnew
  refine ⟨he, hs, hc, hi, ?_⟩
  intro h0
  have hc' : (update_history h line).count ≤ (update_history h line).size := by
    rw [hc, hs]
    split <;> omega
  rw [listed_eq_entries _ (hi.trans h0) hc', listed_eq_entries h h0 hcount, he]

/-- C1 at a concrete input: recording `c` into `[b, a]` of capacity 3. -/
theorem update_history_record_witness :
    (1 ≤ hist_ba.size ∧ hist_ba.count ≤ hist_ba.size ∧ "c" ≠ ""
      ∧ (hist_ba.count = 0 ∨ hist_ba.slot 0 ≠ some "c"))
    ∧ (update_history hist_ba "c").entries = [some "c", some "b", some "a"]
    ∧ (update_history hist_ba "c").count = 3 :=
  ⟨by decide,
   (update_history_record hist_ba "c" (by decide) (by decide) (by decide) (by decide)).1.trans
     (by decide),
   (update_history_record hist_ba "c" (by decide) (by decide) (by decide) (by decide)).2.2.1.trans
     (by decide)⟩

/-! ### History store: resize -/


theorem copy_cmds_length (old fresh : List (Option String)) (n : Nat) :
    (copy_cmds old fresh n).length = fresh.length := by
  induction n with
  | zero => rfl
  | succ n ih => simp [copy_cmds, ih]

theorem copy_cmds_getD (old fresh : List (Option String)) (n j : Nat)
    (hj : j < n) (hf : j < fresh.length) :
    (copy_cmds old fresh n).getD j none = old.getD j none := by
  induction n with
  | zero => omega
  | succ n ih =>
    have hlen : j < (copy_cmds old fresh n).length := by rw [copy_cmds_length]; exact hf
    by_cases hjn : j = n
    · subst hjn
      simp [copy_cmds, List.getD_eq_getElem?_getD, List.getElem?_set, hlen]
    · have : j < n := by omega
      rw [← ih this]
      simp [copy_cmds, List.getD_eq_getElem?_getD, List.getElem?_set, Ne.symm hjn]

theorem resize_history_entries (h : History) (K : Nat) :
    (resize_history h K).size = K
    ∧ (resize_history h K).count = min h.count K
    ∧ (resize_history h K).entries = h.entries.take K
    ∧ (resize_history h K).startIdx = h.startIdx := by
  have hneg : ¬ ((K : Int) < 0) := by omega
  have hc : (if h.count < K then h.count else K) = min h.count K := by
    split <;> omega
  have hres : resize_history h K =
      { recent_cmds := copy_cmds h.recent_cmds (List.replicate K none) (min h.count K),
        count := min h.count K, startIdx := h.startIdx } := by
    unfold resize_history
    rw [if_neg hneg]
    simp only [Int.toNat_ofNat, hc]
  rw [hres]
  refine ⟨?_, rfl, ?_, rfl⟩
  · simp [History.size, copy_cmds_length]
  · unfold History.entries
    rw [← List.map_take, List.take_range, Nat.min_comm K h.count]
    apply List.map_congr_left
    intro j hj
    have hj' : j < min h.count K := List.mem_range.mp hj
    simp only [History.slot]
    apply copy_cmds_getD _ _ _ _ hj'
    simp
    omega


/-- Dispatch of `history set t` reaches `resize_history` with `atoi t`. -/
theorem history_set_dispatch (fuel : Nat) (os : OS) (st : Shell) (t : String) (newSize : Int)
    (hat : atoi t = some newSize) (hok : t = "0" ∨ newSize ≠ 0) :
    execute_input (fuel + 1) os st ["history", "set", t]
      = .ok (1, { st with history := resize_history st.history newSize }, []) := by
  have ht : t ≠ "|" := by
    intro h
    subst h
    have h0 : atoi "|" = some 0 := by decide
    rw [h0] at hat
    rcases hok with h | h
    · exact absurd h (by decide)
    · exact h (Option.some.inj hat).symm
  have hcnt : count_pipes ["history", "set", t] 0 = 0 := by
    simp [count_pipes, ht]
  have hfind : find_builtin "history" builtin_cmds = some BuiltIn.rsh_history := by decide
  simp only [execute_input, hcnt, hfind]
  simp [run_builtin, rsh_history, hat, hok]

/-- C2: resizing a history to `K ≥ 0` gives capacity `K`, `count = min n K` and
as stored entries the first `min n K` old entries in the same order; `[c1..c5]` at
capacity 5 resized to 2 is `[c1, c2]`; resizing to 0 empties the store; and
`history set t` with `t` reading as `K` performs exactly this resize. -/
theorem resize_history_law (h : History) (K : Nat) :
    ((resize_history h K).size = K
      ∧ (resize_history h K).count = min h.count K
      ∧ (resize_history h K).entries = h.entries.take K
      ∧ (resize_history h K).startIdx = h.startIdx)
    ∧ (∀ c1 c2 c3 c4 c5 : String,
        (resize_history
          { recent_cmds := [some c1, some c2, some c3, some c4, some c5], count := 5, startIdx := 0 }
          2).entries = [some c1, some c2])
    ∧ ((resize_history h 0).entries = [] ∧ (resize_history h 0).count = 0
        ∧ (resize_history h 0).size = 0)
    ∧ (∀ (fuel : Nat) (os : OS) (st : Shell) (t : String),
        st.history = h → atoi t = some (K : Int) → (t = "0" ∨ K ≠ 0) →
        execute_input (fuel + 1) os st ["history", "set", t]
          = .ok (1, { st with history := resize_history h K }, [])) := by
  refine ⟨resize_history_entries h K, ?_, ?_, ?_⟩
  · intro c1 c2 c3 c4 c5
    have := (resize_history_entries
      { recent_cmds := [some c1, some c2, some c3, some c4, some c5], count := 5, startIdx := 0 }
      2).2.2.1
    rw [show ((2 : Nat) : Int) = 2 from rfl] at this
    rw [this]
    simp [History.entries, History.slot, List.range_succ]
  · have := resize_history_entries h 0
    simp only [Nat.cast_zero] at this
    obtain ⟨h1, h2, h3, _⟩ := this
    refine ⟨by rw [h3]; simp, by rw [h2]; simp, h1⟩
  · intro fuel os st t hst hat hok
    subst hst
    apply history_set_dispatch fuel os st t K hat
    rcases hok with h | h
    · exact Or.inl h
    · exact Or.inr (by exact_mod_cast h)

/-- C2 at a concrete input: `history set 2` on `[c1..c5]`. -/
theorem resize_history_law_witness :
    (resize_history hist5 2).entries = [some "c1", some "c2"]
    ∧ (atoi "2" = some ((2 : Nat) : Int) ∧ ("2" = "0" ∨ 2 ≠ 0))
    ∧ execute_input 1 ⟨fun _ => true, []⟩ ⟨[], ⟨[]⟩, hist5⟩ ["history", "set", "2"]
        = .ok (1, ⟨[], ⟨[]⟩, resize_history hist5 (2 : Nat)⟩, []) :=
  ⟨(resize_history_law hist5 2).1.2.2.1.trans (by decide),
   ⟨by decide, by decide⟩,
   (resize_history_law hist5 2).2.2.2 0 ⟨fun _ => true, []⟩ ⟨[], ⟨[]⟩, hist5⟩ "2" rfl
     (by decide) (by decide)⟩

/-! ### Tokenizer -/

theorem mem_delimiters (c : Char) : decide (c ∈ delimiters) = spec_is_delimiter c := by
  simp [delimiters, spec_is_delimiter, Bool.or_assoc]

theorem not_mem_delimiters (c : Char) : decide (c ∉ delimiters) = !spec_is_delimiter c := by
  rw [← mem_delimiters]
  simp

theorem strtok_delimiters (s : List Char) :
    strtok delimiters s =
      match s.dropWhile spec_is_delimiter with
      | [] => none
      | c :: cs =>
        some ((c :: cs).takeWhile (fun x => !spec_is_delimiter x),
              ((c :: cs).dropWhile (fun x => !spec_is_delimiter x)).drop 1) := by
  unfold strtok
  have h1 : (fun c => decide (c ∈ delimiters)) = spec_is_delimiter := funext mem_delimiters
  have h2 : (fun x => decide (x ∉ delimiters)) = (fun x => !spec_is_delimiter x) :=
    funext not_mem_delimiters
  rw [h1, h2]

/-- A split starts with the text before the first delimiter and goes on after it. -/
theorem splitOnP_eq_takeWhile_cons (p : Char → Bool) (s : List Char) :
    s.splitOnP p = s.takeWhile (fun x => !p x) ::
      (match s.dropWhile (fun x => !p x) with
       | [] => []
       | _ :: r => r.splitOnP p) := by
  induction s with
  | nil => simp
  | cons x xs ih =>
    rw [List.splitOnP_cons]
    by_cases hx : p x = true
    · simp [hx]
    · simp only [hx, Bool.false_eq_true, if_false]
      rw [ih]
      simp [hx]

theorem spec_split_dropWhile (s : List Char) :
    spec_split s = spec_split (s.dropWhile spec_is_delimiter) := by
  induction s with
  | nil => rfl
  | cons x xs ih =>
    by_cases hx : spec_is_delimiter x = true
    · rw [List.dropWhile_cons_of_pos hx, ← ih]
      simp [spec_split, List.splitOnP_cons, hx]
    · rw [List.dropWhile_cons_of_neg hx]

theorem spec_split_cons_of_not_delimiter (c : Char) (cs : List Char)
    (hc : spec_is_delimiter c = false) :
    spec_split (c :: cs) =
      (c :: cs).takeWhile (fun x => !spec_is_delimiter x) ::
        spec_split (((c :: cs).dropWhile (fun x => !spec_is_delimiter x)).drop 1) := by
  unfold spec_split
  rw [splitOnP_eq_takeWhile_cons]
  have hne : (c :: cs).takeWhile (fun x => !spec_is_delimiter x) ≠ [] := by simp [hc]
  rw [List.filter_cons_of_pos (by simpa using hne)]
  congr 1
  cases hd : (c :: cs).dropWhile (fun x => !spec_is_delimiter x) with
  | nil => simp
  | cons y r => simp

theorem string_length_pos_iff (v : String) : v.length > 0 ↔ v ≠ "" := by
  rw [String.length]
  constructor
  · intro h e
    subst e
    simp at h
  · intro h
    rcases v with ⟨d⟩
    cases d with
    | nil => exact absurd rfl h
    | cons a l => simp

theorem parse_step_eq (st : Shell) (arg : List Char) (tail : List String) :
    (match arg with
      | '$' :: var_name =>
        match variable_sub st (String.mk var_name) with
        | some var_value => if var_value.length > 0 then var_value :: tail else tail
        | none => tail
      | _ => String.mk arg :: tail)
    = (match spec_expand (variable_sub st) arg with
       | none => tail
       | some b => b :: tail) := by
  rcases arg with _ | ⟨c, r⟩
  · rfl
  · by_cases hc : c = '$'
    · subst hc
      simp only [spec_expand]
      cases variable_sub st (String.mk r) with
      | none => rfl
      | some v =>
        by_cases hv : v = ""
        · subst hv; simp
        · have := (string_length_pos_iff v).mpr hv
          simp [hv, this]
    · have hne : ∀ var_name : List Char, c :: r = '$' :: var_name → False := by
        intro v hv
        exact hc (List.cons.inj hv).1
      have hexp : spec_expand (variable_sub st) (c :: r) = some (String.mk (c :: r)) := by
        unfold spec_expand
        split
        · rename_i var_name heq
          exact absurd heq (hne var_name)
        · rfl
      rw [hexp]
      split
      · rename_i var_name heq
        exact absurd heq (hne var_name)
      · rfl

/-- With fuel above the length of the remaining text the `strtok` loop computes the
reference tokens of that text. -/
theorem parse_loop_eq_spec (st : Shell) :
    ∀ (fuel : Nat) (s : List Char), s.length < fuel →
      parse_loop st fuel s = (spec_split s).filterMap (spec_expand (variable_sub st)) := by
  intro fuel
  induction fuel with
  | zero => intro s hs; omega
  | succ fuel ih =>
    intro s hs
    rw [parse_loop, strtok_delimiters, spec_split_dropWhile s]
    have hlen := (List.dropWhile_sublist (l := s) spec_is_delimiter).length_le
    cases hd : s.dropWhile spec_is_delimiter with
    | nil => simp [spec_split]
    | cons c cs =>
      have hc : spec_is_delimiter c = false := by
        have := List.head_dropWhile_not spec_is_delimiter s (by rw [hd]; simp)
        simpa [hd] using this
      rw [hd] at hlen
      have hrest : (((c :: cs).dropWhile (fun x => !spec_is_delimiter x)).drop 1).length < fuel := by
        have := (List.dropWhile_sublist (l := c :: cs) (fun x => !spec_is_delimiter x)).length_le
        simp only [List.length_drop, List.length_cons] at *
        omega
      simp only
      rw [spec_split_cons_of_not_delimiter c cs hc, List.filterMap_cons]
      have hp := parse_step_eq st ((c :: cs).takeWhile (fun x => !spec_is_delimiter x))
        (parse_loop st fuel (((c :: cs).dropWhile (fun x => !spec_is_delimiter x)).drop 1))
      rw [hp, ih _ hrest]
      cases spec_expand (variable_sub st)
        ((c :: cs).takeWhile (fun x => !spec_is_delimiter x)) <;> rfl


/-- C3: for every input line `parse_input` returns what the reference tokenizer
returns: the non-empty pieces between delimiters, in order, a piece beginning with
`$` replaced by the resolver's non-empty value or dropped, the others unchanged.
With `UNSET` in neither the environment nor the local table, `"$UNSET arg"`
tokenizes to `["arg"]`. -/
theorem parse_input_eq_spec_tokenize (st : Shell) (line : String) :
    parse_input st line = spec_tokenize (variable_sub st) line
    ∧ (getenv st.env "UNSET" = none → lookup_local st.shellVars.vars "UNSET" = none →
        parse_input st "$UNSET arg" = ["arg"]) := by
  have key : ∀ l : String, parse_input st l = spec_tokenize (variable_sub st) l := by
    intro l
    unfold parse_input spec_tokenize
    exact parse_loop_eq_spec st _ _ (Nat.lt_succ_self _)
  refine ⟨key line, ?_⟩
  intro henv hloc
  have hres : variable_sub st "UNSET" = none := by
    simp [variable_sub, henv, hloc]
  have hsplit : spec_split "$UNSET arg".toList = ["$UNSET".toList, "arg".toList] := by decide
  rw [key, spec_tokenize, hsplit]
  have h1 : spec_expand (variable_sub st) "$UNSET".toList = none := by
    show (match variable_sub st "UNSET" with
          | some value => if value = "" then none else some value
          | none => none) = none
    rw [hres]
  have h2 : spec_expand (variable_sub st) "arg".toList = some "arg" := rfl
  rw [List.filterMap_cons, h1, List.filterMap_cons, h2]
  rfl

/-- C3 at concrete inputs. -/
theorem parse_input_eq_spec_tokenize_witness :
    (getenv shell0.env "UNSET" = none ∧ lookup_local shell0.shellVars.vars "UNSET" = none)
    ∧ parse_input shell0 "$UNSET arg" = ["arg"]
    ∧ parse_input shell0 "echo $X  $HOME\t$UNSET\n" = ["echo", "5", "/root"] :=
  ⟨by decide,
   (parse_input_eq_spec_tokenize shell0 "").2 (by decide) (by decide),
   ((parse_input_eq_spec_tokenize shell0 "echo $X  $HOME\t$UNSET\n").1).trans (by decide)⟩

/-! ### Dispatcher -/

/-- The scan loop counts the tokens equal to `|`. -/
theorem count_pipes_eq (args : List String) : ∀ n : Nat, count_pipes args n = n + args.count "|" := by
  induction args with
  | nil => intro n; simp [count_pipes]
  | cons a rest ih =>
    intro n
    rw [count_pipes, ih]
    by_cases ha : a = "|"
    · subst ha; simp; omega
    · have : ("|" == a) = false := by simpa using Ne.symm ha
      simp [ha, List.count_cons, this]

theorem find_builtin_none (cmd : String) (h : cmd ∉ builtin_names) :
    find_builtin cmd builtin_cmds = none := by
  simp only [builtin_names, List.mem_cons, List.mem_singleton, not_or, List.not_mem_nil,
    or_false] at h
  obtain ⟨h1, h2, h3, h4, h5, h6⟩ := h
  simp [find_builtin, builtin_cmds, h1, h2, h3, h4, h5, h6]

theorem is_builtin_command_eq (cmd : String) :
    is_builtin_command cmd = if cmd ∈ builtin_names then 1 else 0 := by
  by_cases h : cmd ∈ builtin_names
  · rw [if_pos h]
    simp only [builtin_names, List.mem_cons, List.mem_singleton, List.not_mem_nil, or_false] at h
    rcases h with h | h | h | h | h | h <;> subst h <;> decide
  · rw [if_neg h]
    simp only [builtin_names, List.mem_cons, List.mem_singleton, not_or, List.not_mem_nil,
      or_false] at h
    obtain ⟨h1, h2, h3, h4, h5, h6⟩ := h
    simp [is_builtin_command, is_builtin_loop, builtin_cmds, h1, h2, h3, h4, h5, h6]

theorem execute_input_pipes (fuel : Nat) (os : OS) (st : Shell) (args : List String)
    (hp : "|" ∈ args) :
    execute_input (fuel + 1) os st args
      = after_pipes st (execute_pipes args (args.count "|")) := by
  cases args with
  | nil => simp at hp
  | cons a0 rest =>
    have hpos : 0 < (a0 :: rest).count "|" := List.count_pos_iff.mpr hp
    have hc : count_pipes (a0 :: rest) 0 = (a0 :: rest).count "|" := by
      rw [count_pipes_eq]; omega
    simp only [execute_input, hc, gt_iff_lt, hpos, if_true]
    cases execute_pipes (a0 :: rest) ((a0 :: rest).count "|") <;> rfl

theorem execute_input_no_pipes (fuel : Nat) (os : OS) (st : Shell) (a0 : String)
    (rest : List String) (hp : "|" ∉ a0 :: rest) :
    execute_input (fuel + 1) os st (a0 :: rest)
      = match find_builtin a0 builtin_cmds with
        | some func => run_builtin (execute_input fuel os) os st (a0 :: rest) func
        | none => run_external os st (a0 :: rest) := by
  have hc : count_pipes (a0 :: rest) 0 = 0 := by
    rw [count_pipes_eq, List.count_eq_zero.mpr hp]
  simp only [execute_input, hc, gt_iff_lt, Nat.lt_irrefl, if_false]

/-- C4: the path `execute_input` takes.  An empty vector reports "Empty input!" with
status 1 and does nothing else.  A vector with at least one token `|` goes to
`execute_pipes` with the number of tokens equal to `|` as pipe count, whatever
`args[0]` is.  Otherwise a first token naming a built-in returns that handler's
result, and any other first token takes the single external command path. -/
theorem execute_input_classification (fuel : Nat) (os : OS) (st : Shell) (args : List String) :
    (args = [] →
      execute_input (fuel + 1) os st args = .ok (1, st, [Event.print "Empty input!\n"]))
    ∧ (args ≠ [] → "|" ∈ args →
      execute_input (fuel + 1) os st args
        = after_pipes st (execute_pipes args (args.count "|"))
      ∧ count_pipes args 0 = args.count "|")
    ∧ (∀ (a0 : String) (rest : List String), args = a0 :: rest → "|" ∉ args →
        (a0 = "history" →
          execute_input (fuel + 1) os st args = rsh_history (execute_input fuel os) st args)
        ∧ (a0 = "cd" → execute_input (fuel + 1) os st args = rsh_cd os st args)
        ∧ (a0 = "exit" → execute_input (fuel + 1) os st args = rsh_exit st args)
        ∧ (a0 = "export" → execute_input (fuel + 1) os st args = rsh_export st args)
        ∧ (a0 = "local" → execute_input (fuel + 1) os st args = rsh_local st args)
        ∧ (a0 = "vars" → execute_input (fuel + 1) os st args = rsh_vars st args)
        ∧ (a0 ∉ builtin_names →
          execute_input (fuel + 1) os st args = run_external os st args)) := by
  refine ⟨?_, ?_, ?_⟩
  · intro h
    subst h
    rfl
  · intro _ hp
    exact ⟨execute_input_pipes fuel os st args hp, by rw [count_pipes_eq]; omega⟩
  · intro a0 rest hargs hp
    subst hargs
    have key := execute_input_no_pipes fuel os st a0 rest hp
    refine ⟨?_, ?_, ?_, ?_, ?_, ?_, ?_⟩
    · intro h; subst h; rw [key]; rfl
    · intro h; subst h; rw [key]; rfl
    · intro h; subst h; rw [key]; rfl
    · intro h; subst h; rw [key]; rfl
    · intro h; subst h; rw [key]; rfl
    · intro h; subst h; rw [key]; rfl
    · intro h; rw [key, find_builtin_none a0 h]




/-- C4 at concrete argument vectors, one per path. -/
theorem execute_input_classification_witness :
    ((["cd", "|", "ls"] : List String) ≠ [] ∧ "|" ∈ ["cd", "|", "ls"])
    ∧ execute_input 1 os_ok shell0 ["cd", "|", "ls"]
        = after_pipes shell0 (execute_pipes ["cd", "|", "ls"] 1)
    ∧ execute_input 1 os_ok shell0 ["ls", "-l"] = run_external os_ok shell0 ["ls", "-l"]
    ∧ execute_input 1 os_ok shell0 ["vars"] = rsh_vars shell0 ["vars"]
    ∧ execute_input 1 os_ok shell0 [] = .ok (1, shell0, [Event.print "Empty input!\n"]) :=
  ⟨by decide,
   ((execute_input_classification 0 os_ok shell0 ["cd", "|", "ls"]).2.1
      (by decide) (by decide)).1,
   ((execute_input_classification 0 os_ok shell0 ["ls", "-l"]).2.2 "ls" ["-l"] rfl
      (by decide)).2.2.2.2.2.2 (by decide),
   ((execute_input_classification 0 os_ok shell0 ["vars"]).2.2 "vars" [] rfl
      (by decide)).2.2.2.2.2.1 rfl,
   (execute_input_classification 0 os_ok shell0 []).1 rfl⟩

/-! ### Pipeline builder -/

theorem getElem?_length_append_cons (pre : List String) (x : String) (rest : List String) :
    (pre ++ x :: rest)[pre.length]? = some x := by
  induction pre with
  | nil => simp
  | cons a l ih => simpa using ih

theorem collect_stage_sep (t : List String) :
    ∀ (s acc pre : List String) (fuel : Nat), "|" ∉ s →
      acc.length + s.length ≤ stage_slots → s.length < fuel →
      collect_stage (pre ++ s ++ "|" :: t) fuel pre.length acc
        = .ok (acc ++ s, pre.length + s.length) := by
  intro s
  induction s with
  | nil =>
    intro acc pre fuel _ _ hf
    obtain ⟨f, rfl⟩ : ∃ f, fuel = f + 1 := ⟨fuel - 1, by simp at hf; omega⟩
    rw [List.append_nil, collect_stage, getElem?_length_append_cons]
    simp
  | cons x xs ih =>
    intro acc pre fuel hmem hlen hf
    obtain ⟨f, rfl⟩ : ∃ f, fuel = f + 1 := ⟨fuel - 1, by omega⟩
    have hx : x ≠ "|" := fun h => hmem (by simp [h])
    have hxs : "|" ∉ xs := fun h => hmem (by simp [h])
    have hget : (pre ++ (x :: xs) ++ "|" :: t)[pre.length]? = some x := by
      rw [List.append_assoc, List.cons_append, getElem?_length_append_cons]
    have hacc : ¬ stage_slots ≤ acc.length := by simp at hlen; omega
    have hnext : pre.length + 1 < (pre ++ (x :: xs) ++ "|" :: t).length := by simp
    rw [collect_stage, hget]
    simp only [hx, if_false, hacc, hnext, if_true]
    have e : pre ++ (x :: xs) ++ "|" :: t = (pre ++ [x]) ++ xs ++ "|" :: t := by simp
    have e2 : pre.length + 1 = (pre ++ [x]).length := by simp
    rw [e, e2, ih (acc ++ [x]) (pre ++ [x]) f hxs (by simp at hlen ⊢; omega) (by simp at hf; omega)]
    simp
    omega

theorem collect_stage_last :
    ∀ (xs : List String) (x : String) (acc pre : List String) (fuel : Nat), "|" ∉ x :: xs →
      acc.length + (xs.length + 1) ≤ stage_slots → xs.length < fuel →
      collect_stage (pre ++ x :: xs) fuel pre.length acc
        = .ok (acc ++ x :: xs, pre.length + (xs.length + 1)) := by
  intro xs
  induction xs with
  | nil =>
    intro x acc pre fuel hmem hlen hf
    obtain ⟨f, rfl⟩ : ∃ f, fuel = f + 1 := ⟨fuel - 1, by simp at hf; omega⟩
    have hx : x ≠ "|" := fun h => hmem (by simp [h])
    have hacc : ¬ stage_slots ≤ acc.length := by simp at hlen; omega
    rw [collect_stage, getElem?_length_append_cons]
    simp [hx, hacc]
  | cons y ys ih =>
    intro x acc pre fuel hmem hlen hf
    obtain ⟨f, rfl⟩ : ∃ f, fuel = f + 1 := ⟨fuel - 1, by omega⟩
    have hx : x ≠ "|" := fun h => hmem (by simp [h])
    have hys : "|" ∉ y :: ys := fun h => hmem (List.mem_cons_of_mem _ h)
    have hget : (pre ++ x :: y :: ys)[pre.length]? = some x :=
      getElem?_length_append_cons pre x (y :: ys)
    have hacc : ¬ stage_slots ≤ acc.length := by simp at hlen; omega
    have hnext : pre.length + 1 < (pre ++ x :: y :: ys).length := by simp
    rw [collect_stage, hget]
    simp only [hx, if_false, hacc, hnext, if_true]
    have e : pre ++ x :: y :: ys = (pre ++ [x]) ++ y :: ys := by simp
    have e2 : pre.length + 1 = (pre ++ [x]).length := by simp
    rw [e, e2, ih y (acc ++ [x]) (pre ++ [x]) f hys (by simp at hlen ⊢; omega)
      (by simp at hf; omega)]
    simp
    omega




theorem intercalate_single (s : List String) : ["|"].intercalate [s] = s := by
  simp [List.intercalate]

theorem intercalate_cons_cons (s s2 : List String) (r : List (List String)) :
    ["|"].intercalate (s :: s2 :: r) = s ++ "|" :: ["|"].intercalate (s2 :: r) := by
  simp [List.intercalate]

/-- The stage loop, started at the first token of stage `i`, runs the remaining stages. -/
theorem stage_loop_stages (p : Nat) :
    ∀ (rem : List (List String)) (pre : List String) (i fuel : Nat),
      rem ≠ [] → (∀ s ∈ rem, s ≠ [] ∧ "|" ∉ s ∧ s.length < stage_slots) →
      i + rem.length = p + 1 → i ≤ pre.length → rem.length < fuel →
      stage_loop (pre ++ ["|"].intercalate rem) p fuel i pre.length
        = .ok (stage_events p i rem) := by
  intro rem
  induction rem with
  | nil => intro _ _ _ h; exact absurd rfl h
  | cons s rest ih =>
    intro pre i fuel _ hall hi hpre hfuel
    obtain ⟨hs_ne, hs_bar, hs_len⟩ := hall s (by simp)
    obtain ⟨x, xs, rfl⟩ : ∃ x xs, s = x :: xs := by
      cases s with
      | nil => exact absurd rfl hs_ne
      | cons x xs => exact ⟨x, xs, rfl⟩
    obtain ⟨f, rfl⟩ : ∃ f, fuel = f + 1 := ⟨fuel - 1, by omega⟩
    cases rest with
    | nil =>
      rw [intercalate_single]
      have hcond : i < (pre ++ x :: xs).length ∧ i ≤ p := by
        simp at hi ⊢; omega
      have hcol := collect_stage_last xs x [] pre ((pre ++ x :: xs).length + 1) hs_bar
        (by simp at hs_len ⊢; omega) (by simp; omega)
      obtain ⟨f', rfl⟩ : ∃ f', f = f' + 1 := ⟨f - 1, by simp at hfuel; omega⟩
      have hstop : ¬ (i + 1 < (pre ++ x :: xs).length ∧ i + 1 ≤ p) := by
        simp at hi; omega
      rw [stage_loop, if_pos hcond, hcol]
      simp only [List.nil_append]
      rw [if_neg (by omega), stage_loop, if_neg hstop]
      simp [stage_events]
    | cons s2 r =>
      rw [intercalate_cons_cons]
      have hcond : i < (pre ++ ((x :: xs) ++ "|" :: ["|"].intercalate (s2 :: r))).length ∧ i ≤ p := by
        simp at hi ⊢; omega
      have hcol := collect_stage_sep (["|"].intercalate (s2 :: r)) (x :: xs) [] pre
        ((pre ++ ((x :: xs) ++ "|" :: ["|"].intercalate (s2 :: r))).length + 1) hs_bar
        (by simp at hs_len ⊢; omega) (by simp; omega)
      rw [List.append_assoc] at hcol
      have hrec := ih (pre ++ (x :: xs) ++ ["|"]) (i + 1) f (by simp)
        (fun s hs => hall s (List.mem_cons_of_mem _ hs)) (by simp at hi ⊢; omega)
        (by simp; omega) (by simp at hfuel ⊢; omega)
      have e1 : pre ++ (x :: xs) ++ ["|"] ++ ["|"].intercalate (s2 :: r)
          = pre ++ ((x :: xs) ++ "|" :: ["|"].intercalate (s2 :: r)) := by simp
      have e2 : (pre ++ (x :: xs) ++ ["|"]).length = pre.length + (x :: xs).length + 1 := by
        simp
        omega
      rw [e1, e2] at hrec
      rw [stage_loop, if_pos hcond, hcol]
      simp only [List.nil_append]
      rw [if_neg (by omega), hrec]
      simp [stage_events]




theorem splitOn_length (args : List String) :
    (args.splitOn "|").length = args.count "|" + 1 := by
  unfold List.splitOn
  induction args with
  | nil => simp
  | cons x xs ih =>
    rw [List.splitOnP_cons]
    by_cases hx : x = "|"
    · subst hx
      simp [ih]
    · have hb : (x == "|") = false := by simpa using hx
      have hb2 : ("|" == x) = false := by simpa using Ne.symm hx
      simp only [hb, Bool.false_eq_true, if_false, List.count_cons, hb2]
      cases hsp : List.splitOnP (fun y => y == "|") xs with
      | nil => exact absurd hsp (List.splitOnP_ne_nil _ _)
      | cons h t =>
        rw [hsp] at ih
        simpa using ih

theorem not_mem_of_mem_splitOn (args : List String) :
    ∀ seg ∈ args.splitOn "|", "|" ∉ seg := by
  unfold List.splitOn
  induction args with
  | nil => simp
  | cons x xs ih =>
    rw [List.splitOnP_cons]
    by_cases hx : x = "|"
    · subst hx
      intro seg hseg
      simp at hseg
      rcases hseg with h | h
      · subst h; simp
      · exact ih seg h
    · have hb : (x == "|") = false := by simpa using hx
      simp only [hb, Bool.false_eq_true, if_false]
      cases hsp : List.splitOnP (fun y => y == "|") xs with
      | nil => exact absurd hsp (List.splitOnP_ne_nil _ _)
      | cons h t =>
        rw [hsp] at ih
        intro seg hseg
        simp at hseg
        rcases hseg with h1 | h1
        · subst h1
          have := ih h (by simp)
          simp [Ne.symm hx, this]
        · exact ih seg (List.mem_cons_of_mem _ h1)

theorem forked_append (a b : List Event) : forked (a ++ b) = forked a ++ forked b := by
  simp [forked]

theorem execed_append (a b : List Event) : execed (a ++ b) = execed a ++ execed b := by
  simp [execed]

theorem forked_child_events (p i : Nat) (s : List String) : forked (child_events p i s) = [] := by
  unfold child_events
  simp only [forked_append]
  have h3 : forked ((List.range (2 * p)).map (fun j => Event.close (some i) j)) = [] := by
    simp [forked, List.filterMap_map, Function.comp_def]
  rw [h3]
  split <;> split <;> simp [forked]

theorem execed_child_events (p i : Nat) (s : List String) :
    execed (child_events p i s) = [(i, s)] := by
  unfold child_events
  simp only [execed_append]
  have h3 : execed ((List.range (2 * p)).map (fun j => Event.close (some i) j)) = [] := by
    simp [execed, List.filterMap_map, Function.comp_def]
  rw [h3]
  split <;> split <;> simp [execed]

theorem forked_stage_events (p : Nat) : ∀ (rem : List (List String)) (i : Nat),
    forked (stage_events p i rem) = List.range' i rem.length := by
  intro rem
  induction rem with
  | nil => intro i; rfl
  | cons s rest ih =>
    intro i
    have : forked (Event.fork i :: (child_events p i s ++ stage_events p (i + 1) rest))
        = i :: forked (child_events p i s ++ stage_events p (i + 1) rest) := rfl
    rw [stage_events, List.cons_append, this, forked_append, forked_child_events, ih]
    simp [List.range']

theorem execed_stage_events (p : Nat) : ∀ (rem : List (List String)) (i : Nat),
    execed (stage_events p i rem) = (List.range' i rem.length).zip rem := by
  intro rem
  induction rem with
  | nil => intro i; rfl
  | cons s rest ih =>
    intro i
    have : execed (Event.fork i :: (child_events p i s ++ stage_events p (i + 1) rest))
        = execed (child_events p i s ++ stage_events p (i + 1) rest) := rfl
    rw [stage_events, List.cons_append, this, execed_append, execed_child_events, ih]
    simp [List.range']




/-- The whole trace of `execute_pipes` on a vector with well-formed stages. -/
theorem execute_pipes_stages (args : List String) (p : Nat) (hcount : args.count "|" = p)
    (hseg : ∀ seg ∈ args.splitOn "|", seg ≠ [] ∧ seg.length < stage_slots) :
    execute_pipes args p
      = .ok ((List.range p).map Event.pipe
              ++ stage_events p 0 (args.splitOn "|")
              ++ (List.range (2 * p)).map (fun i => Event.close none i)
              ++ List.replicate (p + 1) Event.wait) := by
  have hlen : (args.splitOn "|").length = p + 1 := by rw [splitOn_length, hcount]
  have hne : args.splitOn "|" ≠ [] := by
    intro h
    rw [h] at hlen
    simp at hlen
  have hall : ∀ s ∈ args.splitOn "|", s ≠ [] ∧ "|" ∉ s ∧ s.length < stage_slots :=
    fun s hs => ⟨(hseg s hs).1, not_mem_of_mem_splitOn args s hs, (hseg s hs).2⟩
  have hloop := stage_loop_stages p (args.splitOn "|") [] 0 (p + 2) hne hall
    (by omega) (by simp) (by omega)
  rw [List.nil_append, List.intercalate_splitOn] at hloop
  simp only [List.length_nil] at hloop
  rw [execute_pipes, hloop]

/-- Partition within the stage buffer: for every argument vector with `p` tokens equal
to `|` whose `|`-delimited segments are all non-empty and have at most 255 tokens (the
stage buffer has 256 slots, one for the terminator), `execute_pipes` returns, forks
exactly the children `0 .. p`, and child `i` calls `execvp` with exactly the `i`-th
segment as argument vector; no segment contains a `|`. -/
theorem execute_pipes_partition (args : List String) (p : Nat) (hcount : args.count "|" = p)
    (hseg : ∀ seg ∈ args.splitOn "|", seg ≠ [] ∧ seg.length < stage_slots) :
    ∃ evs, execute_pipes args p = .ok evs
      ∧ forked evs = List.range (p + 1)
      ∧ execed evs = (List.range (p + 1)).zip (args.splitOn "|")
      ∧ (args.splitOn "|").length = p + 1
      ∧ ∀ seg ∈ args.splitOn "|", "|" ∉ seg := by
  have hlen : (args.splitOn "|").length = p + 1 := by rw [splitOn_length, hcount]
  refine ⟨_, execute_pipes_stages args p hcount hseg, ?_, ?_, hlen, not_mem_of_mem_splitOn args⟩
  · simp only [forked_append, forked_stage_events, hlen]
    have h1 : forked ((List.range p).map Event.pipe) = [] := by
      simp [forked, List.filterMap_map, Function.comp_def]
    have h2 : forked ((List.range (2 * p)).map (fun i => Event.close none i)) = [] := by
      simp [forked, List.filterMap_map, Function.comp_def]
    have h3 : forked (List.replicate (p + 1) Event.wait) = [] := by
      simp [forked, List.filterMap_replicate]
    rw [h1, h2, h3, List.range_eq_range']
    simp
  · simp only [execed_append, execed_stage_events, hlen]
    have h1 : execed ((List.range p).map Event.pipe) = [] := by
      simp [execed, List.filterMap_map, Function.comp_def]
    have h2 : execed ((List.range (2 * p)).map (fun i => Event.close none i)) = [] := by
      simp [execed, List.filterMap_map, Function.comp_def]
    have h3 : execed (List.replicate (p + 1) Event.wait) = [] := by
      simp [execed, List.filterMap_replicate]
    rw [h1, h2, h3, List.range_eq_range']
    simp

/-- The partition of `ls -l | wc`. -/
theorem execute_pipes_partition_witness :
    ((["ls", "-l", "|", "wc"] : List String).count "|" = 1
      ∧ ∀ seg ∈ (["ls", "-l", "|", "wc"] : List String).splitOn "|",
          seg ≠ [] ∧ seg.length < stage_slots)
    ∧ ∃ evs, execute_pipes ["ls", "-l", "|", "wc"] 1 = .ok evs
        ∧ forked evs = [0, 1] ∧ execed evs = [(0, ["ls", "-l"]), (1, ["wc"])] := by
  refine ⟨by decide, ?_⟩
  obtain ⟨evs, h1, h2, h3, _, _⟩ :=
    execute_pipes_partition ["ls", "-l", "|", "wc"] 1 (by decide) (by decide)
  exact ⟨evs, h1, h2.trans (by decide), h3.trans (by decide)⟩

/-! ### History store: consecutive duplicates -/

theorem update_history_of_duplicate (h : History) (L : String)
    (hc : h.count > 0) (hs : h.slot 0 = some L) : update_history h L = h := by
  unfold update_history
  by_cases hL : L = ""
  · rw [if_pos hL]
  · rw [if_neg hL, if_pos ⟨hc, hs⟩]

theorem update_history_head (h : History) (L : String) (hcap : 1 ≤ h.size) (hL : L ≠ "") :
    (update_history h L).count > 0 ∧ (update_history h L).slot 0 = some L := by
  have hslot : ∀ n, ((shift_cmds h.recent_cmds n).set 0 (some L)).getD 0 none = some L := by
    intro n
    have : 0 < (shift_cmds h.recent_cmds n).length := by
      rw [shift_cmds_length]; exact hcap
    simp [List.getD_eq_getElem?_getD, List.getElem?_set, this]
  unfold update_history
  rw [if_neg hL]
  by_cases hdup : h.count > 0 ∧ h.slot 0 = some L
  · rw [if_pos hdup]; exact hdup
  · rw [if_neg hdup]
    by_cases hfull : h.count = h.size
    · rw [if_pos hfull]
      exact ⟨by show h.count > 0; omega, hslot _⟩
    · rw [if_neg hfull]
      exact ⟨Nat.succ_pos _, hslot _⟩

/-- C6: for a history of capacity at least 1 and a non-empty line `L`, recording `L`
twice in a row leaves exactly the state that recording it once leaves; and recording
a line equal to the current most recent entry changes nothing. -/
theorem update_history_idempotent (h : History) (L : String) (hcap : 1 ≤ h.size)
    (hL : L ≠ "") :
    update_history (update_history h L) L = update_history h L
    ∧ (h.count > 0 → h.slot 0 = some L → update_history h L = h) := by
  obtain ⟨hc, hs⟩ := update_history_head h L hcap hL
  exact ⟨update_history_of_duplicate _ L hc hs, update_history_of_duplicate h L⟩

/-- C6 at a concrete input: recording `c` twice into `[b, a]`, and recording `b`. -/
theorem update_history_idempotent_witness :
    (1 ≤ hist_ba.size ∧ "c" ≠ "")
    ∧ update_history (update_history hist_ba "c") "c"
        = { recent_cmds := [some "c", some "b", some "a"], count := 3, startIdx := 0 }
    ∧ (hist_ba.count > 0 ∧ hist_ba.slot 0 = some "b")
    ∧ update_history hist_ba "b" = hist_ba :=
  ⟨by decide,
   (update_history_idempotent hist_ba "c" (by decide) (by decide)).1.trans (by decide),
   by decide,
   (update_history_idempotent hist_ba "b" (by decide) (by decide)).2 (by decide) (by decide)⟩

/-! ### Variable resolver -/

theorem getenv_eq_none_iff (env : List (String × String)) (name : String) :
    getenv env name = none ↔ ∀ kv ∈ env, kv.1 ≠ name := by
  induction env with
  | nil => simp [getenv]
  | cons kv rest ih =>
    obtain ⟨k, v⟩ := kv
    by_cases hk : k = name
    · simp [getenv, hk]
    · simp [getenv, hk, ih]

theorem lookup_local_eq_none_iff (vars : List (String × String)) (name : String) :
    lookup_local vars name = none ↔ ∀ kv ∈ vars, kv.1 ≠ name := by
  induction vars with
  | nil => simp [lookup_local]
  | cons kv rest ih =>
    obtain ⟨k, v⟩ := kv
    by_cases hk : k = name
    · simp [lookup_local, hk]
    · simp [lookup_local, hk, ih]

theorem getenv_setenv_self (env : List (String × String)) (name value : String) :
    getenv (setenv env name value) name = some value := by
  induction env with
  | nil => simp [setenv, getenv]
  | cons kv rest ih =>
    obtain ⟨k, v⟩ := kv
    by_cases hk : k = name
    · simp [setenv, getenv, hk]
    · simp [setenv, getenv, hk, ih]

theorem export_X_1 (fuel : Nat) (os : OS) (st : Shell) :
    execute_input (fuel + 1) os st ["export", "X=1"]
      = .ok (1, { st with env := setenv st.env "X" "1" }, []) := by
  rw [execute_input_no_pipes fuel os st "export" ["X=1"] (by decide)]
  have hf : find_builtin "export" builtin_cmds = some BuiltIn.rsh_export := by decide
  have h1 : strtok ['='] "X=1".toList = some ("X".toList, "1".toList) := by decide
  have h2 : strtok [] "1".toList = some ("1".toList, []) := by decide
  rw [hf]
  simp only [run_builtin, rsh_export]
  rw [show (["export", "X=1"] : List String)[1]? = some "X=1" from rfl]
  simp only [h1, h2]
  rfl

theorem local_X_2 (fuel : Nat) (os : OS) (st : Shell) :
    ∃ st2 evs, execute_input (fuel + 1) os st ["local", "X=2"] = .ok (1, st2, evs)
      ∧ st2.env = st.env := by
  rw [execute_input_no_pipes fuel os st "local" ["X=2"] (by decide)]
  have hf : find_builtin "local" builtin_cmds = some BuiltIn.rsh_local := by decide
  have h1 : strtok ['='] "X=2".toList = some ("X".toList, "2".toList) := by decide
  have h2 : strtok ['='] "2".toList = some ("2".toList, []) := by decide
  rw [hf]
  simp only [run_builtin, rsh_local]
  rw [show (["local", "X=2"] : List String)[1]? = some "X=2" from rfl]
  simp only [h1, h2, Option.map_some']
  cases find_key (String.mk "X".toList) st.shellVars.vars with
  | some i => exact ⟨_, _, rfl, rfl⟩
  | none =>
    by_cases hfull : st.shellVars.vars.length = 100
    · simp only [hfull, if_true]
      exact ⟨_, _, rfl, rfl⟩
    · simp only [hfull, if_false]
      exact ⟨_, _, rfl, rfl⟩

/-- C7: a name set in the environment resolves to its environment value whatever the
local table holds; the local table is consulted only when the environment has no
such name; the result is not-found exactly when neither has it.  After
`export X=1; local X=2` the name `X` resolves to `"1"`. -/
theorem variable_sub_env_shadows (st : Shell) (name : String) :
    (∀ v, getenv st.env name = some v → variable_sub st name = some v)
    ∧ (getenv st.env name = none →
        variable_sub st name = lookup_local st.shellVars.vars name)
    ∧ (variable_sub st name = none ↔
        (∀ kv ∈ st.env, kv.1 ≠ name) ∧ (∀ kv ∈ st.shellVars.vars, kv.1 ≠ name))
    ∧ (∀ (fuel : Nat) (os : OS), ∃ st1 st2 evs,
        execute_input (fuel + 1) os st ["export", "X=1"] = .ok (1, st1, [])
        ∧ execute_input (fuel + 1) os st1 ["local", "X=2"] = .ok (1, st2, evs)
        ∧ variable_sub st2 "X" = some "1"
        ∧ parse_input st2 "$X" = ["1"]) := by
  refine ⟨?_, ?_, ?_, ?_⟩
  · intro v hv
    simp [variable_sub, hv]
  · intro hv
    simp [variable_sub, hv]
  · rw [← getenv_eq_none_iff, ← lookup_local_eq_none_iff]
    unfold variable_sub
    cases getenv st.env name with
    | none => simp
    | some v => simp
  · intro fuel os
    obtain ⟨st2, evs, h2, henv⟩ := local_X_2 fuel os { st with env := setenv st.env "X" "1" }
    have hsub : variable_sub st2 "X" = some "1" := by
      have : getenv st2.env "X" = some "1" := by
        rw [henv]; exact getenv_setenv_self st.env "X" "1"
      simp [variable_sub, this]
    refine ⟨_, st2, evs, export_X_1 fuel os st, h2, hsub, ?_⟩
    have hsub' : variable_sub st2 (String.mk ['X']) = some "1" := hsub
    have h1 : strtok delimiters "$X".toList = some ("$X".toList, []) := by decide
    have h0 : strtok delimiters [] = none := by decide
    simp only [parse_input, parse_loop, h1]
    show (match variable_sub st2 (String.mk ['X']) with
          | some var_value =>
            if var_value.length > 0 then var_value :: parse_loop st2 2 []
            else parse_loop st2 2 []
          | none => parse_loop st2 2 []) = ["1"]
    rw [hsub']
    have hlen : "1".length > 0 := by decide
    simp [parse_loop, h0, hlen]

/-- C7 at a concrete state where `X` is both exported and local. -/
theorem variable_sub_env_shadows_witness :
    getenv [("X", "1")] "X" = some "1"
    ∧ variable_sub { env := [("X", "1")], shellVars := ⟨[("X", "2")]⟩, history := init_history } "X"
        = some "1" :=
  ⟨by decide,
   (variable_sub_env_shadows
      { env := [("X", "1")], shellVars := ⟨[("X", "2")]⟩, history := init_history } "X").1
      "1" (by decide)⟩

/-! ### Command loop -/

theorem main_rsh_iter_of_ok (fuel : Nat) (os : OS) (st st1 : Shell) (line a0 : String)
    (rest : List String) (status : Int) (evs : List Event)
    (hargs : parse_input st line = a0 :: rest)
    (hexec : execute_input fuel os st (a0 :: rest) = .ok (status, st1, evs)) :
    main_rsh_iter fuel os st line =
      if is_builtin_command a0 = 0 ∧ st1.history.size ≠ 0 then
        .ok ({ st1 with history := update_history st1.history line }, Event.print "rsh> " :: evs)
      else .ok (st1, Event.print "rsh> " :: evs) := by
  simp only [main_rsh_iter, hargs, hexec]

theorem execute_input_external (fuel : Nat) (os : OS) (st : Shell) (a0 : String)
    (rest : List String) (waits : List Event) (hb : a0 ∉ builtin_names)
    (hp : "|" ∉ a0 :: rest) (hw : wait_loop os.wstatus = some waits) :
    execute_input (fuel + 1) os st (a0 :: rest)
      = .ok (0, st, [Event.fork 0, Event.execvp 0 (a0 :: rest)] ++ waits) := by
  rw [execute_input_no_pipes fuel os st a0 rest hp, find_builtin_none a0 hb]
  simp only [run_external, hw]

theorem execute_input_pipeline (fuel : Nat) (os : OS) (st : Shell) (args : List String)
    (hp : "|" ∈ args)
    (hseg : ∀ seg ∈ args.splitOn "|", seg ≠ [] ∧ seg.length < stage_slots) :
    ∃ evs, execute_input (fuel + 1) os st args = .ok (0, st, evs) := by
  rw [execute_input_pipes fuel os st args hp, execute_pipes_stages args _ rfl hseg]
  exact ⟨_, rfl⟩

/-- C8 (amended): with history capacity above 0, a line whose first token is not a
built-in name is passed to the record step after its dispatch returns, as a single
external command whose child terminates or as a pipeline with well-formed stages:
the history afterwards is `update_history history line` for the original line.  A
line whose first token names a built-in ends the iteration in the state its dispatch
left, without a record step, and when such a line is a pipeline that state is the
starting state. -/
theorem main_rsh_records (fuel : Nat) (os : OS) (st : Shell) (line a0 : String)
    (rest : List String) (hcap : 0 < st.history.size)
    (hargs : parse_input st line = a0 :: rest) :
    (a0 ∉ builtin_names → "|" ∉ a0 :: rest → wait_loop os.wstatus ≠ none →
      ∃ evs, main_rsh_iter (fuel + 1) os st line
        = .ok ({ st with history := update_history st.history line }, evs))
    ∧ (a0 ∉ builtin_names → "|" ∈ a0 :: rest →
        (∀ seg ∈ (a0 :: rest).splitOn "|", seg ≠ [] ∧ seg.length < stage_slots) →
      ∃ evs, main_rsh_iter (fuel + 1) os st line
        = .ok ({ st with history := update_history st.history line }, evs))
    ∧ (a0 ∈ builtin_names →
        main_rsh_iter (fuel + 1) os st line
          = after_dispatch (execute_input (fuel + 1) os st (a0 :: rest)))
    ∧ (a0 ∈ builtin_names → "|" ∈ a0 :: rest →
        (∀ seg ∈ (a0 :: rest).splitOn "|", seg ≠ [] ∧ seg.length < stage_slots) →
      ∃ evs, main_rsh_iter (fuel + 1) os st line = .ok (st, evs)) := by
  have hsize : st.history.size ≠ 0 := by omega
  refine ⟨?_, ?_, ?_, ?_⟩
  · intro hb hp hw
    obtain ⟨waits, hw'⟩ := Option.ne_none_iff_exists'.mp hw
    have hexec := execute_input_external fuel os st a0 rest waits hb hp hw'
    have hnb : is_builtin_command a0 = 0 := by rw [is_builtin_command_eq, if_neg hb]
    rw [main_rsh_iter_of_ok _ os st st line a0 rest 0 _ hargs hexec, if_pos ⟨hnb, hsize⟩]
    exact ⟨_, rfl⟩
  · intro hb hp hseg
    obtain ⟨evs, hexec⟩ := execute_input_pipeline fuel os st (a0 :: rest) hp hseg
    have hnb : is_builtin_command a0 = 0 := by rw [is_builtin_command_eq, if_neg hb]
    rw [main_rsh_iter_of_ok _ os st st line a0 rest 0 evs hargs hexec, if_pos ⟨hnb, hsize⟩]
    exact ⟨_, rfl⟩
  · intro hb
    have hnb : ¬ (is_builtin_command a0 = 0) := by
      rw [is_builtin_command_eq, if_pos hb]; decide
    simp only [main_rsh_iter, hargs]
    cases hexec : execute_input (fuel + 1) os st (a0 :: rest) with
    | ok val =>
      obtain ⟨status, st1, evs⟩ := val
      simp [after_dispatch, hnb]
    | exited c => rfl
    | undef => rfl
    | diverge => rfl
  · intro hb hp hseg
    obtain ⟨evs, hexec⟩ := execute_input_pipeline fuel os st (a0 :: rest) hp hseg
    have hnb : ¬ (is_builtin_command a0 = 0 ∧ st.history.size ≠ 0) := by
      rw [is_builtin_command_eq, if_pos hb]; simp
    rw [main_rsh_iter_of_ok _ os st st line a0 rest 0 evs hargs hexec, if_neg hnb]
    exact ⟨_, rfl⟩

/-- C8 (amended) at `ls -l`, which is recorded, and at `vars`, which is not. -/
theorem main_rsh_records_witness :
    (0 < shell0.history.size ∧ parse_input shell0 "ls -l\n" = ["ls", "-l"]
      ∧ "ls" ∉ builtin_names ∧ "|" ∉ ["ls", "-l"] ∧ wait_loop os_ok.wstatus ≠ none)
    ∧ (∃ evs, main_rsh_iter 1 os_ok shell0 "ls -l\n"
        = .ok ({ shell0 with history := update_history shell0.history "ls -l\n" }, evs))
    ∧ main_rsh_iter 1 os_ok shell0 "vars\n"
        = after_dispatch (execute_input 1 os_ok shell0 ["vars"]) :=
  ⟨by decide,
   (main_rsh_records 0 os_ok shell0 "ls -l\n" "ls" ["-l"] (by decide) (by decide)).1
     (by decide) (by decide) (by decide),
   (main_rsh_records 0 os_ok shell0 "vars\n" "vars" [] (by decide) (by decide)).2.2.1
     (by decide)⟩

/-- C8 as stated fails: `cd | ls` is dispatched through the pipeline builder (two
children are forked), the history capacity is 5, and the iteration ends in the
starting state, whose history is not `update_history history line`. -/
theorem main_rsh_pipeline_not_recorded :
    0 < shell0.history.size
    ∧ "|" ∈ parse_input shell0 "cd | ls\n"
    ∧ (∃ evs, main_rsh_iter 1 os_ok shell0 "cd | ls\n" = .ok (shell0, evs)
        ∧ forked evs = [0, 1])
    ∧ shell0.history ≠ update_history shell0.history "cd | ls\n" :=
  ⟨by decide, by decide, ⟨_, rfl, by decide⟩, by decide⟩

/-! ### Replay -/

theorem rsh_history_replay (exec : Shell → List String → Res Out) (st : Shell) (t cmd : String)
    (N : Nat) (hN : atoi t = some (N : Int)) (h1 : 1 ≤ N) (hcount : N ≤ st.history.count)
    (hsize : st.history.size ≠ 0)
    (hslot : st.history.slot ((st.history.startIdx + N - 1) % st.history.size) = some cmd) :
    rsh_history exec st ["history", t]
      = match exec st (parse_input st cmd) with
        | .ok (_, st1, evs) => .ok (1, st1, evs)
        | r => r := by
  have hidx : ((N : Int) > 0 ∧ (N : Int) ≤ (st.history.count : Int)) := by
    constructor <;> omega
  have hset : (if t = "set" then (["history", t] : List String)[2]? else none) = none := by
    split <;> rfl
  simp only [rsh_history]
  rw [show (["history", t] : List String)[1]? = some t from rfl]
  simp only [hset, hN, hidx, and_self, if_true, hsize, if_false, Int.toNat_ofNat, hslot]

theorem atoi_bar : atoi "|" = some 0 := by decide

theorem main_rsh_iter_replay (fuel : Nat) (os : OS) (st : Shell) (line t cmd : String)
    (args : List String) (N : Nat) (evs : List Event)
    (hline : parse_input st line = ["history", t])
    (hN : atoi t = some (N : Int)) (h1 : 1 ≤ N) (hcount : N ≤ st.history.count)
    (hsize : st.history.size ≠ 0)
    (hslot : st.history.slot ((st.history.startIdx + N - 1) % st.history.size) = some cmd)
    (hcmd : parse_input st cmd = args)
    (hret : execute_input (fuel + 1) os st args = .ok (0, st, evs)) :
    main_rsh_iter (fuel + 2) os st line = .ok (st, Event.print "rsh> " :: evs) := by
  have ht : t ≠ "|" := by
    intro h
    subst h
    rw [atoi_bar] at hN
    have := Option.some.inj hN
    omega
  have hp : "|" ∉ ["history", t] := by
    simp [Ne.symm ht]
  have hexec : execute_input (fuel + 2) os st ["history", t] = .ok (1, st, evs) := by
    rw [execute_input_no_pipes (fuel + 1) os st "history" [t] hp]
    rw [show find_builtin "history" builtin_cmds = some BuiltIn.rsh_history from by decide]
    simp only [run_builtin]
    rw [rsh_history_replay _ st t cmd N hN h1 hcount hsize hslot, hcmd, hret]
  have hb : ¬ (is_builtin_command "history" = 0 ∧ st.history.size ≠ 0) := by
    rw [show is_builtin_command "history" = 1 from by decide]
    simp
  rw [main_rsh_iter_of_ok _ os st st line "history" [t] 1 evs hline hexec, if_neg hb]

/-- C9 (amended): for a history with `count ≤ capacity` and `1 ≤ N ≤ count`, when the
line stored at the position that `history N` replays is a non-built-in command (its
first token is not a built-in name) whose dispatch returns (a single external command
whose child terminates, or a pipeline with well-formed stages), processing the line
`history N` dispatches the tokens of the stored line and ends in the starting state:
the history is unchanged, so neither the replayed line nor the line `history N` is
recorded. -/
theorem replay_not_recorded (fuel : Nat) (os : OS) (st : Shell) (line t cmd b0 : String)
    (brest : List String) (N : Nat)
    (hline : parse_input st line = ["history", t])
    (hN : atoi t = some (N : Int)) (h1 : 1 ≤ N) (hcount : N ≤ st.history.count)
    (hwf : st.history.count ≤ st.history.size)
    (hslot : st.history.slot ((st.history.startIdx + N - 1) % st.history.size) = some cmd)
    (hcmd : parse_input st cmd = b0 :: brest) (hnb : b0 ∉ builtin_names)
    (hdisp : ("|" ∉ b0 :: brest ∧ wait_loop os.wstatus ≠ none)
      ∨ ("|" ∈ b0 :: brest
          ∧ ∀ seg ∈ (b0 :: brest).splitOn "|", seg ≠ [] ∧ seg.length < stage_slots)) :
    ∃ evs, execute_input (fuel + 1) os st (b0 :: brest) = .ok (0, st, evs)
      ∧ main_rsh_iter (fuel + 2) os st line = .ok (st, Event.print "rsh> " :: evs) := by
  have hsize : st.history.size ≠ 0 := by omega
  have hret : ∃ evs, execute_input (fuel + 1) os st (b0 :: brest) = .ok (0, st, evs) := by
    rcases hdisp with ⟨hp, hw⟩ | ⟨hp, hseg⟩
    · obtain ⟨waits, hw'⟩ := Option.ne_none_iff_exists'.mp hw
      exact ⟨_, execute_input_external fuel os st b0 brest waits hnb hp hw'⟩
    · exact execute_input_pipeline fuel os st (b0 :: brest) hp hseg
  obtain ⟨evs, hevs⟩ := hret
  exact ⟨evs, hevs,
    main_rsh_iter_replay fuel os st line t cmd (b0 :: brest) N evs hline hN h1 hcount hsize
      hslot hcmd hevs⟩

/-- C9 (amended) at `history 2` on the history `[b, a]`. -/
theorem replay_not_recorded_witness :
    (parse_input shell_ba "history 2\n" = ["history", "2"] ∧ atoi "2" = some ((2 : Nat) : Int)
      ∧ 2 ≤ shell_ba.history.count ∧ shell_ba.history.count ≤ shell_ba.history.size
      ∧ shell_ba.history.slot
          ((shell_ba.history.startIdx + 2 - 1) % shell_ba.history.size) = some "a"
      ∧ parse_input shell_ba "a" = ["a"] ∧ "a" ∉ builtin_names
      ∧ "|" ∉ ["a"] ∧ wait_loop os_ok.wstatus ≠ none)
    ∧ ∃ evs, execute_input 1 os_ok shell_ba ["a"] = .ok (0, shell_ba, evs)
        ∧ main_rsh_iter 2 os_ok shell_ba "history 2\n"
            = .ok (shell_ba, Event.print "rsh> " :: evs) :=
  ⟨by decide,
   replay_not_recorded 0 os_ok shell_ba "history 2\n" "2" "a" "a" [] 2
     (by decide) (by decide) (by decide) (by decide) (by decide) (by decide) (by decide)
     (by decide) (Or.inl (by decide))⟩

/-- C9 as stated fails: in the history `[b, a]` the line at position 2 is the
non-built-in command `a`; processing `history 2` runs `a` and leaves the history as
it was, so the most recent entry is still `b` and `a` has not been recorded. -/
theorem replay_leaves_history :
    (∃ evs, main_rsh_iter 2 os_ok shell_ba "history 2\n" = .ok (shell_ba, evs)
      ∧ execed evs = [(0, ["a"])])
    ∧ shell_ba.history.slot 0 = some "b"
    ∧ shell_ba.history ≠ update_history shell_ba.history "a" :=
  ⟨⟨_, rfl, by decide⟩, by decide, by decide⟩

/-! ### Local variable table -/

theorem strtok_eq_nil : strtok ['='] [] = none := rfl

theorem strtok_eq_token (n v : List Char) (hn : n ≠ []) (hne : '=' ∉ n) :
    strtok ['='] (n ++ '=' :: v) = some (n, v) := by
  obtain ⟨c, cs, rfl⟩ : ∃ c cs, n = c :: cs := by
    cases n with
    | nil => exact absurd rfl hn
    | cons c cs => exact ⟨c, cs, rfl⟩
  have hc : c ≠ '=' := fun h => hne (by simp [h])
  have hall : ∀ x ∈ c :: cs, decide (x ∉ ['=']) = true := by
    intro x hx
    have : x ≠ '=' := fun h => hne (h ▸ hx)
    simpa using this
  have hd : (c :: cs ++ '=' :: v).dropWhile (fun x => decide (x ∈ ['='])) = c :: cs ++ '=' :: v := by
    simp [List.dropWhile, hc]
  unfold strtok
  rw [hd]
  simp only [List.cons_append]
  rw [← List.cons_append, List.takeWhile_append_of_pos hall, List.dropWhile_append_of_pos hall]
  simp

theorem strtok_eq_whole (v : List Char) (hv : v ≠ []) (hne : '=' ∉ v) :
    strtok ['='] v = some (v, []) := by
  obtain ⟨c, cs, rfl⟩ : ∃ c cs, v = c :: cs := by
    cases v with
    | nil => exact absurd rfl hv
    | cons c cs => exact ⟨c, cs, rfl⟩
  have hc : c ≠ '=' := fun h => hne (by simp [h])
  have hall : ∀ x ∈ c :: cs, decide (x ∉ ['=']) = true := by
    intro x hx
    have : x ≠ '=' := fun h => hne (h ▸ hx)
    simpa using this
  have hd : (c :: cs).dropWhile (fun x => decide (x ∈ ['='])) = c :: cs := by
    simp [List.dropWhile, hc]
  unfold strtok
  rw [hd]
  simp only
  rw [List.takeWhile_eq_self_iff.mpr hall, List.dropWhile_eq_nil_iff.mpr hall]
  rfl




theorem toList_ne_nil (s : String) (h : s ≠ "") : s.toList ≠ [] := by
  intro hs
  apply h
  rcases s with ⟨d⟩
  simp only [String.toList] at hs
  subst hs
  rfl

theorem toList_name_eq_value (n v : String) :
    (n ++ "=" ++ v).toList = n.toList ++ '=' :: v.toList := by
  simp [String.toList]

theorem toList_name_eq (n : String) : (n ++ "=").toList = n.toList ++ '=' :: [] := by
  simp [String.toList]

theorem rsh_local_set (st : Shell) (n v : String) (hn : n ≠ "") (hne : '=' ∉ n.toList)
    (hv : v ≠ "") (hve : '=' ∉ v.toList) :
    rsh_local st ["local", n ++ "=" ++ v] =
      match find_key n st.shellVars.vars with
      | some i => .ok (1, { st with shellVars := ⟨set_value st.shellVars.vars i v⟩ }, [])
      | none =>
        if st.shellVars.vars.length = 100 then
          .ok (1, st, [.print "local: maximum number of variables reached\n"])
        else .ok (1, { st with shellVars := ⟨st.shellVars.vars ++ [(n, v)]⟩ }, []) := by
  have h1 := strtok_eq_token n.toList v.toList (toList_ne_nil n hn) hne
  have h2 := strtok_eq_whole v.toList (toList_ne_nil v hv) hve
  simp only [rsh_local]
  rw [show (["local", n ++ "=" ++ v] : List String)[1]? = some (n ++ "=" ++ v) from rfl]
  simp only [toList_name_eq_value, h1, h2, Option.map_some']
  have e1 : String.mk n.toList = n := rfl
  have e2 : String.mk v.toList = v := rfl
  rw [e1, e2]
  cases find_key n st.shellVars.vars <;> simp

theorem rsh_local_remove (st : Shell) (n : String) (hn : n ≠ "") (hne : '=' ∉ n.toList) :
    rsh_local st ["local", n ++ "="] =
      match find_key n st.shellVars.vars with
      | some i => .ok (1, { st with shellVars := ⟨st.shellVars.vars.eraseIdx i⟩ }, [])
      | none =>
        if st.shellVars.vars.length = 100 then
          .ok (1, st, [.print "local: maximum number of variables reached\n"])
        else .undef := by
  have h1 := strtok_eq_token n.toList [] (toList_ne_nil n hn) hne
  simp only [rsh_local]
  rw [show (["local", n ++ "="] : List String)[1]? = some (n ++ "=") from rfl]
  simp only [toList_name_eq, h1, strtok_eq_nil, Option.map_none']
  have e1 : String.mk n.toList = n := rfl
  rw [e1]
  cases find_key n st.shellVars.vars <;> simp




theorem find_key_eq_none_iff (k : String) (vars : List (String × String)) :
    find_key k vars = none ↔ k ∉ vars.map Prod.fst := by
  induction vars with
  | nil => simp [find_key]
  | cons kv rest ih =>
    obtain ⟨k', v'⟩ := kv
    by_cases hk : k' = k
    · simp [find_key, hk]
    · simp [find_key, hk, ih, Ne.symm hk]

theorem find_key_eq_some (k : String) :
    ∀ (vars : List (String × String)) (i : Nat), find_key k vars = some i →
      ∃ A old B, vars = A ++ (k, old) :: B ∧ A.length = i ∧ k ∉ A.map Prod.fst := by
  intro vars
  induction vars with
  | nil => intro i h; simp [find_key] at h
  | cons kv rest ih =>
    intro i h
    obtain ⟨k', v'⟩ := kv
    by_cases hk : k' = k
    · subst hk
      simp [find_key] at h
      subst h
      exact ⟨[], v', rest, rfl, rfl, by simp⟩
    · simp only [find_key, hk, if_false, Option.map_eq_some'] at h
      obtain ⟨j, hj, rfl⟩ := h
      obtain ⟨A, old, B, hv, hl, hA⟩ := ih j hj
      refine ⟨(k', v') :: A, old, B, by rw [hv]; rfl, by simp [hl], ?_⟩
      simp [Ne.symm hk]
      simpa using hA

theorem set_value_append (A B : List (String × String)) (k old v : String) :
    set_value (A ++ (k, old) :: B) A.length v = A ++ (k, v) :: B := by
  induction A with
  | nil => rfl
  | cons a A ih =>
    show a :: set_value (A ++ (k, old) :: B) A.length v = a :: (A ++ (k, v) :: B)
    rw [ih]

theorem eraseIdx_length_append (A B : List (String × String)) (x : String × String) :
    (A ++ x :: B).eraseIdx A.length = A ++ B := by
  induction A with
  | nil => rfl
  | cons a A ih =>
    show a :: (A ++ x :: B).eraseIdx A.length = a :: (A ++ B)
    rw [ih]

theorem filter_ne_key_of_not_mem (k : String) (A : List (String × String))
    (h : k ∉ A.map Prod.fst) : A.filter (fun kv => decide (kv.1 ≠ k)) = A := by
  rw [List.filter_eq_self]
  intro kv hkv
  have : kv.1 ≠ k := fun e => h (e ▸ List.mem_map_of_mem Prod.fst hkv)
  simpa using this

theorem filter_ne_key_split (k old : String) (A B : List (String × String))
    (hA : k ∉ A.map Prod.fst) (hB : k ∉ B.map Prod.fst) :
    (A ++ (k, old) :: B).filter (fun kv => decide (kv.1 ≠ k)) = A ++ B := by
  rw [List.filter_append, List.filter_cons_of_neg (by simp),
    filter_ne_key_of_not_mem k A hA, filter_ne_key_of_not_mem k B hB]




/-- One `local` command keeps the keys unique and the table equal, up to order, to the
reference map. -/
theorem rsh_local_step (st : Shell) (m : List (String × String)) (c : LocalCmd)
    (hnd : (st.shellVars.vars.map Prod.fst).Nodup) (hperm : st.shellVars.vars.Perm m)
    (hplain : c.plain = true)
    (hlive : ∀ name, c = .remove name → name ∈ m.map Prod.fst)
    (hcap : (spec_local_step m c).length ≤ 100) :
    ∃ status st1 evs, rsh_local st c.args = .ok (status, st1, evs)
      ∧ (st1.shellVars.vars.map Prod.fst).Nodup
      ∧ st1.shellVars.vars.Perm (spec_local_step m c) := by
  cases c with
  | set n v =>
    simp only [LocalCmd.plain, Bool.and_eq_true, decide_eq_true_eq] at hplain
    obtain ⟨⟨⟨hn, hne⟩, hv⟩, hve⟩ := hplain
    have hfilter := (hperm.filter (fun kv => decide (kv.1 ≠ n))).append_right [(n, v)]
    rw [LocalCmd.args, rsh_local_set st n v hn hne hv hve]
    cases hfk : find_key n st.shellVars.vars with
    | some i =>
      obtain ⟨A, old, B, hvars, hlen, hA⟩ := find_key_eq_some n _ i hfk
      have hB : n ∉ B.map Prod.fst := by
        rw [hvars] at hnd
        simp only [List.map_append, List.map_cons] at hnd
        have := (List.nodup_append.mp hnd).2.1
        exact (List.nodup_cons.mp this).1
      refine ⟨1, _, [], rfl, ?_, ?_⟩
      · show ((set_value st.shellVars.vars i v).map Prod.fst).Nodup
        rw [hvars, ← hlen, set_value_append]
        rw [hvars] at hnd
        simpa using hnd
      · show (set_value st.shellVars.vars i v).Perm _
        rw [hvars, filter_ne_key_split n old A B hA hB] at hfilter
        rw [hvars, ← hlen, set_value_append]
        refine List.Perm.trans ?_ hfilter
        rw [List.append_assoc]
        exact List.Perm.append_left A (List.perm_append_singleton (n, v) B).symm
    | none =>
      have hnot := (find_key_eq_none_iff n _).mp hfk
      rw [filter_ne_key_of_not_mem n _ hnot] at hfilter
      have hlen : st.shellVars.vars.length ≠ 100 := by
        have := hfilter.length_eq
        simp only [spec_local_step] at hcap
        simp only [List.length_append, List.length_singleton] at this hcap
        omega
      simp only [hlen, if_false]
      refine ⟨1, _, [], rfl, ?_, hfilter⟩
      show ((st.shellVars.vars ++ [(n, v)]).map Prod.fst).Nodup
      rw [List.map_append, List.nodup_append]
      refine ⟨hnd, by simp, ?_⟩
      intro a ha hb
      simp at hb
      subst hb
      exact hnot ha
  | remove n =>
    simp only [LocalCmd.plain, Bool.and_eq_true, decide_eq_true_eq] at hplain
    obtain ⟨hn, hne⟩ := hplain
    have hfilter := hperm.filter (fun kv => decide (kv.1 ≠ n))
    have hmem : n ∈ st.shellVars.vars.map Prod.fst :=
      ((hperm.map Prod.fst).mem_iff).mpr (hlive n rfl)
    rw [LocalCmd.args, rsh_local_remove st n hn hne]
    cases hfk : find_key n st.shellVars.vars with
    | none => exact absurd hmem ((find_key_eq_none_iff n _).mp hfk)
    | some i =>
      obtain ⟨A, old, B, hvars, hlen, hA⟩ := find_key_eq_some n _ i hfk
      have hB : n ∉ B.map Prod.fst := by
        rw [hvars] at hnd
        simp only [List.map_append, List.map_cons] at hnd
        have := (List.nodup_append.mp hnd).2.1
        exact (List.nodup_cons.mp this).1
      refine ⟨1, _, [], rfl, ?_, ?_⟩
      · show ((st.shellVars.vars.eraseIdx i).map Prod.fst).Nodup
        rw [hvars, ← hlen, eraseIdx_length_append]
        rw [hvars] at hnd
        simp only [List.map_append, List.map_cons] at hnd ⊢
        exact (List.nodup_cons.mp (List.nodup_middle.mp hnd)).2
      · show (st.shellVars.vars.eraseIdx i).Perm _
        rw [hvars, filter_ne_key_split n old A B hA hB] at hfilter
        rw [hvars, ← hlen, eraseIdx_length_append]
        exact hfilter

theorem run_locals_matches (cmds : List LocalCmd) :
    ∀ (st : Shell) (m : List (String × String)),
      (st.shellVars.vars.map Prod.fst).Nodup → st.shellVars.vars.Perm m →
      spec_admissible m cmds = true →
      ∃ st1, run_locals st cmds = .ok st1
        ∧ (st1.shellVars.vars.map Prod.fst).Nodup
        ∧ st1.shellVars.vars.Perm (spec_local_run m cmds) := by
  induction cmds with
  | nil => intro st m hnd hperm _; exact ⟨st, rfl, hnd, hperm⟩
  | cons c cs ih =>
    intro st m hnd hperm hadm
    simp only [spec_admissible, Bool.and_eq_true, decide_eq_true_eq] at hadm
    obtain ⟨⟨⟨hplain, hlive⟩, hcap⟩, hrest⟩ := hadm
    have hlive' : ∀ name, c = .remove name → name ∈ m.map Prod.fst := by
      intro name hc
      subst hc
      simpa using hlive
    obtain ⟨status, st1, evs, hstep, hnd1, hperm1⟩ :=
      rsh_local_step st m c hnd hperm hplain hlive' hcap
    obtain ⟨st2, hrun, hnd2, hperm2⟩ := ih st1 (spec_local_step m c) hnd1 hperm1 hrest
    refine ⟨st2, ?_, hnd2, hperm2⟩
    simp only [run_locals, hstep]
    exact hrun




/-- C10 (amended): starting from a table with unique keys, for every sequence of
`local NAME=value` and `local NAME=` commands with non-empty names and values free of
`=`, in which every `local NAME=` names a key bound at that point and the reference
map never has more than 100 bindings, all commands return and the table that `vars`
prints has unique keys and holds exactly the bindings of the reference map: the live
keys, each once, each with its last-written value. -/
theorem local_table_matches_reference (st : Shell) (cmds : List LocalCmd)
    (hnd : (st.shellVars.vars.map Prod.fst).Nodup)
    (hadm : spec_admissible st.shellVars.vars cmds = true) :
    ∃ st1, run_locals st cmds = .ok st1
      ∧ (st1.shellVars.vars.map Prod.fst).Nodup
      ∧ st1.shellVars.vars.Perm (spec_local_run st.shellVars.vars cmds)
      ∧ (∀ k v, (k, v) ∈ st1.shellVars.vars ↔ (k, v) ∈ spec_local_run st.shellVars.vars cmds)
      ∧ rsh_vars st1 ["vars"]
          = .ok (1, st1,
              st1.shellVars.vars.map (fun kv => Event.print (kv.1 ++ "=" ++ kv.2 ++ "\n"))) := by
  obtain ⟨st1, hrun, hnd1, hperm⟩ :=
    run_locals_matches cmds st st.shellVars.vars hnd (List.Perm.refl _) hadm
  exact ⟨st1, hrun, hnd1, hperm, fun k v => hperm.mem_iff, rfl⟩

/-- C10 (amended) at `local X=1; local Y=2; local X=3; local Y=`. -/
theorem local_table_matches_reference_witness :
    ((shell_init.shellVars.vars.map Prod.fst).Nodup
      ∧ spec_admissible shell_init.shellVars.vars
          [.set "X" "1", .set "Y" "2", .set "X" "3", .remove "Y"] = true)
    ∧ ∃ st1, run_locals shell_init [.set "X" "1", .set "Y" "2", .set "X" "3", .remove "Y"]
          = .ok st1
        ∧ st1.shellVars.vars.Perm [("X", "3")] := by
  refine ⟨⟨by decide, by decide⟩, ?_⟩
  obtain ⟨st1, h1, _, h3, _⟩ :=
    local_table_matches_reference shell_init
      [.set "X" "1", .set "Y" "2", .set "X" "3", .remove "Y"] (by decide) (by decide)
  exact ⟨st1, h1, h3.trans (by decide : List.Perm _ _)⟩

/-- C10 as stated fails: `local Z=a=b` stores the value `a`, not the written `a=b`;
and `local Y=` on a table without `Y` runs into `strdup(NULL)`. -/
theorem local_table_differs_from_reference :
    run_locals shell_init [.set "Z" "a=b"]
      = .ok { shell_init with shellVars := ⟨[("Z", "a")]⟩ }
    ∧ spec_local_run shell_init.shellVars.vars [.set "Z" "a=b"] = [("Z", "a=b")]
    ∧ run_locals shell_init [.remove "Y"] = .undef := by
  decide

/-! ### History store: sliding window -/

theorem take_append_take (K : Nat) (X Y : List (Option String)) :
    (X ++ Y.take K).take K = (X ++ Y).take K := by
  rw [List.take_append_eq_append_take, List.take_append_eq_append_take, List.take_take]
  congr 2
  omega

theorem update_history_bounds (h : History) (L : String) (hcap : 1 ≤ h.size)
    (hcount : h.count ≤ h.size) :
    (update_history h L).size = h.size ∧ (update_history h L).count ≤ h.size
      ∧ (update_history h L).startIdx = h.startIdx := by
  by_cases hL : L = ""
  · simp [update_history, hL, hcount]
  · by_cases hdup : h.count > 0 ∧ h.slot 0 = some L
    · rw [update_history_of_duplicate h L hdup.1 hdup.2]
      exact ⟨rfl, hcount, rfl⟩
    · have hnew : h.count = 0 ∨ h.slot 0 ≠ some L := by
        by_cases h0 : h.count = 0
        · exact Or.inl h0
        · exact Or.inr (fun hs => hdup ⟨by omega, hs⟩)
      obtain ⟨_, hs, hc, hi⟩ := update_history_entries h L hcap hcount hL hnew
      refine ⟨hs, ?_, hi⟩
      rw [hc]
      split <;> omega

theorem record_all_entries : ∀ (lines : List String) (h : History),
    1 ≤ h.size → h.count ≤ h.size → (∀ L ∈ lines, L ≠ "") →
    lines.Chain' (fun a b => a ≠ b) →
    (∀ L ∈ lines.head?, h.count = 0 ∨ h.slot 0 ≠ some L) →
    (record_all h lines).entries = ((lines.reverse.map some) ++ h.entries).take h.size
      ∧ (record_all h lines).size = h.size
      ∧ (record_all h lines).count ≤ h.size := by
  intro lines
  induction lines with
  | nil =>
    intro h _ hcount _ _ _
    refine ⟨?_, rfl, hcount⟩
    show h.entries = (h.entries).take h.size
    rw [List.take_of_length_le]
    simp [History.entries]
    exact hcount
  | cons L rest ih =>
    intro h hcap hcount hne hchain hhead
    have hL : L ≠ "" := hne L (by simp)
    have hnew := hhead L (by simp)
    obtain ⟨he, hs, _, _⟩ := update_history_entries h L hcap hcount hL hnew
    obtain ⟨_, hc1, _⟩ := update_history_bounds h L hcap hcount
    obtain ⟨_, hslot⟩ := update_history_head h L hcap hL
    have hhead' : ∀ M ∈ rest.head?, (update_history h L).count = 0
        ∨ (update_history h L).slot 0 ≠ some M := by
      intro M hM
      right
      rw [hslot]
      intro e
      have hLM : L ≠ M := by
        cases rest with
        | nil => simp at hM
        | cons M' r =>
          simp at hM
          subst hM
          exact (List.chain'_cons.mp hchain).1
      exact hLM (Option.some.inj e)
    obtain ⟨ie, is, ic⟩ := ih (update_history h L) (by rw [hs]; exact hcap)
      (by rw [hs]; exact hc1) (fun M hM => hne M (List.mem_cons_of_mem _ hM))
      (List.Chain'.tail hchain) hhead'
    have hrec : record_all h (L :: rest) = record_all (update_history h L) rest := rfl
    rw [hrec]
    refine ⟨?_, by rw [is, hs], by rw [← hs]; exact ic⟩
    rw [ie, he, hs, take_append_take]
    simp




theorem entries_of_head (h : History) (L : String) (hc : h.count > 0) (hs : h.slot 0 = some L) :
    ∃ tl, h.entries = some L :: tl := by
  obtain ⟨c, hc'⟩ : ∃ c, h.count = c + 1 := ⟨h.count - 1, by omega⟩
  refine ⟨(List.range c).map (fun i => h.slot (i + 1)), ?_⟩
  simp [History.entries, hc', List.range_succ_eq_map, hs, Function.comp_def]

theorem record_all_window (h : History) (lines : List String) (hcap : 1 ≤ h.size)
    (hcount : h.count ≤ h.size) (hn : h.size ≤ lines.length) (hne : ∀ L ∈ lines, L ≠ "")
    (hchain : lines.Chain' (fun a b => a ≠ b)) :
    (record_all h lines).entries = (lines.reverse.map some).take h.size
      ∧ (record_all h lines).size = h.size := by
  cases lines with
  | nil => simp at hn; omega
  | cons L rest =>
    by_cases hdup : h.count > 0 ∧ h.slot 0 = some L
    · have hrec : record_all h (L :: rest) = record_all h rest := by
        show record_all (update_history h L) rest = record_all h rest
        rw [update_history_of_duplicate h L hdup.1 hdup.2]
      have hhead : ∀ M ∈ rest.head?, h.count = 0 ∨ h.slot 0 ≠ some M := by
        intro M hM
        right
        rw [hdup.2]
        intro e
        have hLM : L ≠ M := by
          cases rest with
          | nil => simp at hM
          | cons M' r =>
            simp at hM
            subst hM
            exact (List.chain'_cons.mp hchain).1
        exact hLM (Option.some.inj e)
      obtain ⟨he, hs, _⟩ := record_all_entries rest h hcap hcount
        (fun M hM => hne M (List.mem_cons_of_mem _ hM)) (List.Chain'.tail hchain) hhead
      obtain ⟨tl, htl⟩ := entries_of_head h L hdup.1 hdup.2
      rw [hrec]
      refine ⟨?_, hs⟩
      rw [he, htl]
      have e : List.map some rest.reverse ++ some L :: tl
          = List.map some (L :: rest).reverse ++ tl := by simp
      rw [e, List.take_append_of_le_length (by simpa using hn)]
    · have hnew : ∀ M ∈ (L :: rest).head?, h.count = 0 ∨ h.slot 0 ≠ some M := by
        intro M hM
        simp at hM
        subst hM
        by_cases h0 : h.count = 0
        · exact Or.inl h0
        · exact Or.inr (fun hs => hdup ⟨by omega, hs⟩)
      obtain ⟨he, hs, _⟩ := record_all_entries (L :: rest) h hcap hcount hne hchain hnew
      refine ⟨?_, hs⟩
      rw [he, List.take_append_of_le_length (by simpa using hn)]

theorem chain_abcd : (["a", "b", "c", "d"] : List String).Chain' (fun a b => a ≠ b) := by
  simp

/-- C11: for every `K ≥ 1`, every starting history and every sequence of at least `K`
non-empty lines without two equal adjacent lines, resizing to `K` and then recording
the lines in order leaves as stored entries exactly the last `K` lines, most recent
first, at capacity `K` with `count = K`.  In particular resizing to 3 and recording
`a, b, c, d` leaves `[d, c, b]`. -/
theorem sliding_window (h0 : History) (K : Nat) (lines : List String) (hK : 1 ≤ K)
    (hn : K ≤ lines.length) (hne : ∀ L ∈ lines, L ≠ "")
    (hchain : lines.Chain' (fun a b => a ≠ b)) :
    (record_all (resize_history h0 K) lines).entries = (lines.reverse.map some).take K
    ∧ (record_all (resize_history h0 K) lines).size = K
    ∧ (record_all (resize_history h0 K) lines).count = K
    ∧ (record_all (resize_history h0 3) ["a", "b", "c", "d"]).entries
        = [some "d", some "c", some "b"] := by
  have key : ∀ (k : Nat) (ls : List String), 1 ≤ k → k ≤ ls.length → (∀ L ∈ ls, L ≠ "") →
      ls.Chain' (fun a b => a ≠ b) →
      (record_all (resize_history h0 k) ls).entries = (ls.reverse.map some).take k
      ∧ (record_all (resize_history h0 k) ls).size = k := by
    intro k ls hk hl hne' hch
    obtain ⟨hs, hc, _, _⟩ := resize_history_entries h0 k
    have := record_all_window (resize_history h0 k) ls (by rw [hs]; exact hk)
      (by rw [hs, hc]; exact Nat.min_le_right _ _) (by rw [hs]; exact hl) hne' hch
    rw [hs] at this
    exact this
  obtain ⟨he, hs⟩ := key K lines hK hn hne hchain
  refine ⟨he, hs, ?_, ?_⟩
  · have hlen : (record_all (resize_history h0 K) lines).entries.length = K := by
      rw [he]
      simp
      exact hn
    simpa [History.entries] using hlen
  · have := (key 3 ["a", "b", "c", "d"] (by decide) (by decide) (by decide) chain_abcd).1
    exact this.trans (by decide)

/-- C11 at `history set 3` followed by `a, b, c, d` on the history `[b, a]`. -/
theorem sliding_window_witness :
    (1 ≤ 3 ∧ 3 ≤ (["a", "b", "c", "d"] : List String).length
      ∧ (∀ L ∈ (["a", "b", "c", "d"] : List String), L ≠ "")
      ∧ (["a", "b", "c", "d"] : List String).Chain' (fun a b => a ≠ b))
    ∧ (record_all (resize_history hist_ba (3 : Nat)) ["a", "b", "c", "d"]).entries
        = [some "d", some "c", some "b"] :=
  ⟨⟨by decide, by decide, by decide, chain_abcd⟩,
   (sliding_window hist_ba 3 ["a", "b", "c", "d"] (by decide) (by decide) (by decide)
      chain_abcd).1.trans (by decide)⟩

/-! ### Reachable histories -/

theorem resize_history_neg (h : History) : resize_history h (-1) = h := by
  simp [resize_history]

theorem rsh_cd_history (os : OS) (st st1 : Shell) (args : List String) (s : Int)
    (evs : List Event) (h : rsh_cd os st args = .ok (s, st1, evs)) :
    ∃ K : Int, st1.history = resize_history st.history K := by
  unfold rsh_cd at h
  refine ⟨-1, ?_⟩
  rw [resize_history_neg]
  split at h
  · cases h; rfl
  · split at h <;> (cases h; rfl)

theorem rsh_export_history (st st1 : Shell) (args : List String) (s : Int)
    (evs : List Event) (h : rsh_export st args = .ok (s, st1, evs)) :
    ∃ K : Int, st1.history = resize_history st.history K := by
  unfold rsh_export at h
  refine ⟨-1, ?_⟩
  rw [resize_history_neg]
  split at h
  · cases h; rfl
  · split at h
    · cases h; rfl
    · split at h <;> (cases h; rfl)

theorem rsh_local_history (st st1 : Shell) (args : List String) (s : Int)
    (evs : List Event) (h : rsh_local st args = .ok (s, st1, evs)) :
    ∃ K : Int, st1.history = resize_history st.history K := by
  unfold rsh_local at h
  refine ⟨-1, ?_⟩
  rw [resize_history_neg]
  split at h
  · cases h; rfl
  · split at h
    · cases h; rfl
    · simp only at h
      split at h
      · cases h; rfl
      · split at h
        · split at h
          · cases h; rfl
          · cases h
        · split at h
          · cases h; rfl
          · split at h
            · cases h; rfl
            · cases h

theorem rsh_vars_history (st st1 : Shell) (args : List String) (s : Int)
    (evs : List Event) (h : rsh_vars st args = .ok (s, st1, evs)) :
    ∃ K : Int, st1.history = resize_history st.history K := by
  unfold rsh_vars at h
  cases h
  exact ⟨-1, (resize_history_neg _).symm⟩

theorem rsh_history_history (exec : Shell → List String → Res Out) (st st1 : Shell)
    (args : List String) (s : Int) (evs : List Event)
    (hexec : ∀ argv s2 st2 evs2, exec st argv = .ok (s2, st2, evs2) →
      ∃ K : Int, st2.history = resize_history st.history K)
    (h : rsh_history exec st args = .ok (s, st1, evs)) :
    ∃ K : Int, st1.history = resize_history st.history K := by
  unfold rsh_history at h
  split at h
  · split at h
    · split at h
      · cases h
      · rename_i newSize _
        split at h
        · cases h; exact ⟨newSize, rfl⟩
        · cases h; exact ⟨-1, (resize_history_neg _).symm⟩
    · split at h
      · cases h
      · split at h
        · split at h
          · cases h
          · simp only at h
            split at h
            · cases h
            · split at h
              · rename_i s2 st2 evs2 hex
                cases h
                exact hexec _ _ _ _ hex
              · rename_i r hr
                exact hexec _ _ _ _ h
        · cases h; exact ⟨-1, (resize_history_neg _).symm⟩
  · split at h
    · cases h; exact ⟨-1, (resize_history_neg _).symm⟩
    · cases h
    · cases h
    · cases h

theorem execute_input_history : ∀ (fuel : Nat) (os : OS) (st st1 : Shell) (args : List String)
    (s : Int) (evs : List Event), execute_input fuel os st args = .ok (s, st1, evs) →
    ∃ K : Int, st1.history = resize_history st.history K := by
  intro fuel
  induction fuel with
  | zero => intro os st st1 args s evs h; simp [execute_input] at h
  | succ fuel ih =>
    intro os st st1 args s evs h
    cases args with
    | nil =>
      simp only [execute_input] at h
      cases h
      exact ⟨-1, (resize_history_neg _).symm⟩
    | cons a0 rest =>
      by_cases hp : "|" ∈ a0 :: rest
      · rw [execute_input_pipes fuel os st _ hp] at h
        cases hpipe : execute_pipes (a0 :: rest) ((a0 :: rest).count "|") with
        | ok evs1 =>
          rw [hpipe] at h
          simp only [after_pipes] at h
          cases h
          exact ⟨-1, (resize_history_neg _).symm⟩
        | exited c => rw [hpipe] at h; simp [after_pipes] at h
        | undef => rw [hpipe] at h; simp [after_pipes] at h
        | diverge => rw [hpipe] at h; simp [after_pipes] at h
      · rw [execute_input_no_pipes fuel os st a0 rest hp] at h
        cases hf : find_builtin a0 builtin_cmds with
        | none =>
          rw [hf] at h
          simp only [run_external] at h
          split at h
          · cases h
          · cases h
            exact ⟨-1, (resize_history_neg _).symm⟩
        | some func =>
          rw [hf] at h
          cases func with
          | rsh_history =>
            simp only [run_builtin] at h
            exact rsh_history_history (execute_input fuel os) st st1 _ s evs
              (fun argv s2 st2 evs2 h2 => ih os st st2 argv s2 evs2 h2) h
          | rsh_cd =>
            simp only [run_builtin] at h
            exact rsh_cd_history os st st1 _ s evs h
          | rsh_exit => simp [run_builtin, rsh_exit] at h
          | rsh_export =>
            simp only [run_builtin] at h
            exact rsh_export_history st st1 _ s evs h
          | rsh_local =>
            simp only [run_builtin] at h
            exact rsh_local_history st st1 _ s evs h
          | rsh_vars =>
            simp only [run_builtin] at h
            exact rsh_vars_history st st1 _ s evs h




theorem resize_history_wf (h : History) (K : Int) (hwf : history_wf h) :
    history_wf (resize_history h K) := by
  by_cases hK : K < 0
  · simp [resize_history, hK, hwf]
  · obtain ⟨n, rfl⟩ := Int.eq_ofNat_of_zero_le (by omega : 0 ≤ K)
    obtain ⟨hs, hc, he, hi⟩ := resize_history_entries h n
    refine ⟨hi.trans hwf.1, ?_, ?_⟩
    · rw [hs, hc]; exact Nat.min_le_right _ _
    · intro x hx
      rw [he] at hx
      exact hwf.2.2 x (List.mem_of_mem_take hx)

theorem resize_history_head (h : History) (K : Int)
    (hpos : (resize_history h K).count > 0) :
    h.count > 0 ∧ (resize_history h K).slot 0 = h.slot 0 := by
  by_cases hK : K < 0
  · have e : resize_history h K = h := by simp [resize_history, hK]
    rw [e] at hpos ⊢
    exact ⟨hpos, rfl⟩
  · obtain ⟨n, rfl⟩ := Int.eq_ofNat_of_zero_le (by omega : 0 ≤ K)
    have hc : (if h.count < n then h.count else n) = min h.count n := by
      split <;> omega
    have hres : resize_history h n =
        { recent_cmds := copy_cmds h.recent_cmds (List.replicate n none) (min h.count n),
          count := min h.count n, startIdx := h.startIdx } := by
      unfold resize_history
      rw [if_neg hK]
      simp only [Int.toNat_ofNat, hc]
    rw [hres] at hpos ⊢
    have hpos' : 0 < min h.count n := hpos
    refine ⟨by omega, ?_⟩
    show (copy_cmds h.recent_cmds (List.replicate n none) (min h.count n)).getD 0 none
      = h.recent_cmds.getD 0 none
    exact copy_cmds_getD _ _ _ 0 hpos' (by simp; omega)

theorem update_history_wf (h : History) (L : String) (hwf : history_wf h)
    (hsize : h.size ≠ 0) : history_wf (update_history h L) := by
  obtain ⟨h0, hc, hne⟩ := hwf
  by_cases hL : L = ""
  · simp only [update_history, hL, if_true]
    exact ⟨h0, hc, hne⟩
  · by_cases hdup : h.count > 0 ∧ h.slot 0 = some L
    · rw [update_history_of_duplicate h L hdup.1 hdup.2]
      exact ⟨h0, hc, hne⟩
    · have hnew : h.count = 0 ∨ h.slot 0 ≠ some L := by
        by_cases hz : h.count = 0
        · exact Or.inl hz
        · exact Or.inr (fun hs => hdup ⟨by omega, hs⟩)
      obtain ⟨he, hs, hcnt, hi⟩ := update_history_entries h L (by omega) hc hL hnew
      refine ⟨hi.trans h0, ?_, ?_⟩
      · rw [hs, hcnt]
        split <;> omega
      · intro x hx
        rw [he] at hx
        have := List.mem_of_mem_take hx
        simp only [List.mem_cons] at this
        rcases this with e | e
        · rw [e]; simp
        · exact hne x e

theorem parse_input_empty (st : Shell) : parse_input st "" = [] := rfl

theorem main_rsh_iter_cases (fuel : Nat) (os : OS) (st st2 : Shell) (line : String)
    (evs2 : List Event) (h : main_rsh_iter fuel os st line = .ok (st2, evs2)) :
    ∃ s st1 evs, execute_input fuel os st (parse_input st line) = .ok (s, st1, evs)
      ∧ line ≠ ""
      ∧ ((main_rsh_recorded fuel os st line = true ∧ st1.history.size ≠ 0
            ∧ st2 = { st1 with history := update_history st1.history line })
          ∨ (main_rsh_recorded fuel os st line = false ∧ st2 = st1)) := by
  unfold main_rsh_iter at h
  simp only at h
  cases hex : execute_input fuel os st (parse_input st line) with
  | ok val =>
    obtain ⟨s, st1, evs⟩ := val
    rw [hex] at h
    simp only at h
    cases hargs : parse_input st line with
    | nil => rw [hargs] at h; simp at h
    | cons a0 rest =>
      rw [hargs] at h
      simp only at h
      have hline : line ≠ "" := by
        intro e
        rw [e, parse_input_empty] at hargs
        cases hargs
      have hex' : execute_input fuel os st (a0 :: rest) = .ok (s, st1, evs) := hargs ▸ hex
      refine ⟨s, st1, evs, rfl, hline, ?_⟩
      by_cases hg : is_builtin_command a0 = 0 ∧ st1.history.size ≠ 0
      · rw [if_pos hg] at h
        cases h
        left
        refine ⟨?_, hg.2, rfl⟩
        simp [main_rsh_recorded, hargs, hex', hg]
      · rw [if_neg hg] at h
        cases h
        right
        refine ⟨?_, rfl⟩
        simp only [main_rsh_recorded, hargs, hex']
        exact decide_eq_false hg
  | exited c => rw [hex] at h; simp at h
  | undef => rw [hex] at h; simp at h
  | diverge => rw [hex] at h; simp at h

/-- Every reachable history satisfies the bounds, and when it is non-empty its slot 0
holds the line most recently passed to `update_history`. -/
theorem reachable_inv (st : Shell) (last : Option String) (hr : Reachable st last) :
    history_wf st.history
      ∧ (st.history.count > 0 → ∀ L, last = some L → st.history.slot 0 = some L) := by
  induction hr with
  | start env =>
    refine ⟨⟨rfl, (by decide : init_history.count ≤ init_history.size), ?_⟩, ?_⟩
    · intro x hx
      simp [History.entries, init_history] at hx
    · intro hc
      simp [init_history] at hc
  | step fuel os st last line st2 evs2 last1 _ hiter hlast ih =>
    obtain ⟨hwf, hhead⟩ := ih
    obtain ⟨s, st1, evs, hex, hline, hcase⟩ := main_rsh_iter_cases fuel os st st2 line evs2 hiter
    obtain ⟨K, hK⟩ := execute_input_history fuel os st st1 _ s evs hex
    have hwf1 : history_wf st1.history := by rw [hK]; exact resize_history_wf _ K hwf
    rcases hcase with ⟨hrec, hsize, hst2⟩ | ⟨hrec, hst2⟩
    · rw [hrec, if_pos rfl] at hlast
      subst hst2
      refine ⟨update_history_wf _ line hwf1 hsize, ?_⟩
      intro _ L hL
      rw [hlast] at hL
      cases hL
      exact (update_history_head st1.history line (by omega) hline).2
    · rw [hrec] at hlast
      simp only [Bool.false_eq_true, if_false] at hlast
      subst hst2
      refine ⟨hwf1, ?_⟩
      intro hc L hL
      rw [hK] at hc ⊢
      obtain ⟨hc0, hs0⟩ := resize_history_head st.history K hc
      rw [hs0]
      exact hhead hc0 L (hlast ▸ hL)




theorem execute_input_replay (fuel : Nat) (os : OS) (st : Shell) (t cmd : String) (N : Nat)
    (hN : atoi t = some (N : Int)) (h1 : 1 ≤ N) (hcount : N ≤ st.history.count)
    (hsize : st.history.size ≠ 0)
    (hslot : st.history.slot ((st.history.startIdx + N - 1) % st.history.size) = some cmd) :
    execute_input (fuel + 2) os st ["history", t]
      = (match execute_input (fuel + 1) os st (parse_input st cmd) with
         | .ok (_, st1, evs) => .ok (1, st1, evs)
         | r => r) := by
  have ht : t ≠ "|" := by
    intro h
    subst h
    rw [atoi_bar] at hN
    have := Option.some.inj hN
    omega
  have hp : "|" ∉ ["history", t] := by
    simp [Ne.symm ht]
  rw [execute_input_no_pipes (fuel + 1) os st "history" [t] hp]
  rw [show find_builtin "history" builtin_cmds = some BuiltIn.rsh_history from by decide]
  simp only [run_builtin]
  rw [rsh_history_replay _ st t cmd N hN h1 hcount hsize hslot]

theorem reachable_shell_a : Reachable shell_a (some "a\n") :=
  Reachable.step 1 os_ok shell_init none "a\n" shell_a _ _ (Reachable.start []) rfl (by decide)

theorem reachable_shell_ab : Reachable shell_ab (some "b\n") :=
  Reachable.step 1 os_ok shell_a (some "a\n") "b\n" shell_ab _ _ reachable_shell_a rfl
    (by decide)

/-- C12: in every reachable state and for every `N` with `1 ≤ N ≤ count`, the index
`(startIdx + N - 1) % size` that `history N` computes has a non-zero modulus, equals
`N - 1` and is below `count`; the slot holds a stored line, the one at position
`N - 1` of the stored entries in either order, and `history N` tokenizes and
dispatches exactly that line. -/
theorem replay_selects_position (st : Shell) (last : Option String) (N : Nat)
    (hr : Reachable st last) (h1 : 1 ≤ N) (hN : N ≤ st.history.count) :
    st.history.size ≠ 0
    ∧ (st.history.startIdx + N - 1) % st.history.size = N - 1
    ∧ N - 1 < st.history.count
    ∧ ∃ cmd, st.history.entries[N - 1]? = some (some cmd)
        ∧ st.history.listed[N - 1]? = some (some cmd)
        ∧ ∀ (fuel : Nat) (os : OS) (t : String), atoi t = some (N : Int) →
            execute_input (fuel + 2) os st ["history", t]
              = (match execute_input (fuel + 1) os st (parse_input st cmd) with
                 | .ok (_, st1, evs) => .ok (1, st1, evs)
                 | r => r) := by
  obtain ⟨⟨h0, hc, hne⟩, _⟩ := reachable_inv st last hr
  have hsize : st.history.size ≠ 0 := by omega
  have hpos : (st.history.startIdx + N - 1) % st.history.size = N - 1 := by
    rw [h0, Nat.zero_add]
    exact Nat.mod_eq_of_lt (by omega)
  have hent : st.history.entries[N - 1]? = some (st.history.slot (N - 1)) := by
    have hlt : N - 1 < st.history.count := by omega
    simp [History.entries, List.getElem?_range, hlt]
  have hmem : st.history.slot (N - 1) ∈ st.history.entries :=
    List.mem_map.mpr ⟨N - 1, List.mem_range.mpr (by omega), rfl⟩
  obtain ⟨cmd, hcmd⟩ := Option.ne_none_iff_exists'.mp (hne _ hmem)
  refine ⟨hsize, hpos, by omega, cmd, ?_, ?_, ?_⟩
  · rw [hent, hcmd]
  · rw [listed_eq_entries _ h0 hc, hent, hcmd]
  · intro fuel os t ht
    exact execute_input_replay fuel os st t cmd N ht h1 hN hsize (by rw [hpos]; exact hcmd)

/-- C12 at `history 2` after the lines `a` and `b`: the line `a` is dispatched. -/
theorem replay_selects_position_witness :
    (1 ≤ 2 ∧ 2 ≤ shell_ab.history.count)
    ∧ (shell_ab.history.startIdx + 2 - 1) % shell_ab.history.size = 2 - 1
    ∧ ∃ cmd, shell_ab.history.entries[2 - 1]? = some (some cmd)
        ∧ execute_input 2 os_ok shell_ab ["history", "2"]
            = (match execute_input 1 os_ok shell_ab (parse_input shell_ab cmd) with
               | .ok (_, st1, evs) => .ok (1, st1, evs)
               | r => r) := by
  refine ⟨by decide, ?_⟩
  obtain ⟨_, h2, _, cmd, h4, _, h6⟩ :=
    replay_selects_position shell_ab (some "b\n") 2 reachable_shell_ab (by decide) (by decide)
  exact ⟨h2, cmd, h4, h6 0 os_ok "2" (by decide)⟩




/-- C14: in every reachable state `count ≤ capacity`, each of the positions
`0 .. count - 1` holds a stored line (in the order of the slots and in the order
`rsh_history` lists them), and the entry at position 0, which exists when
`count > 0`, is the line most recently passed to the record step. -/
theorem history_bounds_invariant (st : Shell) (last : Option String)
    (hr : Reachable st last) :
    st.history.count ≤ st.history.size
    ∧ (∀ i, i < st.history.count →
        ∃ cmd, st.history.slot i = some cmd ∧ st.history.listed[i]? = some (some cmd))
    ∧ (st.history.count > 0 → ∀ L, last = some L →
        st.history.slot 0 = some L ∧ st.history.listed[0]? = some (some L)) := by
  obtain ⟨⟨h0, hc, hne⟩, hhead⟩ := reachable_inv st last hr
  have hent : ∀ i, i < st.history.count →
      st.history.listed[i]? = some (st.history.slot i) := by
    intro i hi
    rw [listed_eq_entries _ h0 hc]
    simp [History.entries, List.getElem?_range, hi]
  refine ⟨hc, ?_, ?_⟩
  · intro i hi
    have hmem : st.history.slot i ∈ st.history.entries :=
      List.mem_map.mpr ⟨i, List.mem_range.mpr hi, rfl⟩
    obtain ⟨cmd, hcmd⟩ := Option.ne_none_iff_exists'.mp (hne _ hmem)
    exact ⟨cmd, hcmd, by rw [hent i hi, hcmd]⟩
  · intro hpos L hL
    have hs := hhead hpos L hL
    exact ⟨hs, by rw [hent 0 hpos, hs]⟩

/-- C14 at the state after the lines `a` and `b`. -/
theorem history_bounds_invariant_witness :
    shell_ab.history.count ≤ shell_ab.history.size
    ∧ shell_ab.history.slot 0 = some "b\n" :=
  ⟨(history_bounds_invariant shell_ab (some "b\n") reachable_shell_ab).1,
   ((history_bounds_invariant shell_ab (some "b\n") reachable_shell_ab).2.2
      (by decide) "b\n" rfl).1⟩

/-! ### Replay: rejected arguments -/

/-- An argument whose `atoi` value is below 1 or above `count` is reported and
nothing is dispatched. -/
theorem rsh_history_rejects (exec : Shell → List String → Res Out) (st : Shell) (t : String)
    (v : Int) (hv : atoi t = some v) (hbad : v < 1 ∨ (st.history.count : Int) < v) :
    rsh_history exec st ["history", t] = .ok (-1, st, [Event.print "Numeric Only!\n"]) := by
  have hidx : ¬ (v > 0 ∧ v ≤ (st.history.count : Int)) := by omega
  have hset : (if t = "set" then (["history", t] : List String)[2]? else none) = none := by
    split <;> rfl
  simp only [rsh_history]
  rw [show (["history", t] : List String)[1]? = some t from rfl]
  simp only [hset, hv, hidx, if_false]

/-- C13 at the failing input: with the single stored line `a`, the argument `1x` is
not a number, yet `history 1x` reports nothing and dispatches the stored line. -/
theorem history_numeric_prefix_replays :
    atoi "1x" = some 1
    ∧ execute_input 2 os_ok shell_a ["history", "1x"]
        = .ok (1, shell_a, [Event.fork 0, Event.execvp 0 ["a"], Event.waitpid (.exited 0)]) := by
  decide

/-! ### History store: non-adjacent duplicates -/

/-- C15 (amended): for a history with capacity at least 1 and `count ≤ capacity` and
distinct non-empty lines `L` and `M`, recording `L`, then `M`, then `L` again stores
the second `L` as a new most recent entry in front of the entries left by the first
two recordings; this third recording increases `count` by one when the store is not
full before it, and leaves `count` at the capacity, evicting the oldest entry, when
it is full. -/
theorem record_non_adjacent_duplicate (h : History) (L M : String) (hcap : 1 ≤ h.size)
    (hcount : h.count ≤ h.size) (hL : L ≠ "") (hM : M ≠ "") (hLM : L ≠ M) :
    (update_history (update_history (update_history h L) M) L).entries
      = (some L :: (update_history (update_history h L) M).entries).take h.size
    ∧ (update_history (update_history (update_history h L) M) L).slot 0 = some L
    ∧ ((update_history (update_history h L) M).count < h.size →
        (update_history (update_history (update_history h L) M) L).count
          = (update_history (update_history h L) M).count + 1)
    ∧ ((update_history (update_history h L) M).count = h.size →
        (update_history (update_history (update_history h L) M) L).count = h.size) := by
  obtain ⟨hs1, hc1, _⟩ := update_history_bounds h L hcap hcount
  obtain ⟨hs2, hc2, _⟩ := update_history_bounds (update_history h L) M
    (by rw [hs1]; exact hcap) (by rw [hs1]; exact hc1)
  rw [hs1] at hs2 hc2
  obtain ⟨_, hslot2⟩ := update_history_head (update_history h L) M (by rw [hs1]; exact hcap) hM
  have hnew : (update_history (update_history h L) M).count = 0
      ∨ (update_history (update_history h L) M).slot 0 ≠ some L := by
    right
    rw [hslot2]
    intro e
    exact hLM (Option.some.inj e).symm
  obtain ⟨he, _, hc3, _⟩ := update_history_entries (update_history (update_history h L) M) L
    (by rw [hs2]; exact hcap) (by rw [hs2]; exact hc2) hL hnew
  rw [hs2] at he hc3
  refine ⟨he, (update_history_head _ L (by rw [hs2]; exact hcap) hL).2, ?_, ?_⟩
  · intro hlt
    rw [hc3, if_neg (by omega)]
  · intro heq
    rw [hc3, if_pos heq, heq]

/-- C15 (amended) at `L`, `M`, `L` recorded into the initial history. -/
theorem record_non_adjacent_duplicate_witness :
    (1 ≤ init_history.size ∧ init_history.count ≤ init_history.size
      ∧ "L" ≠ "" ∧ "M" ≠ "" ∧ "L" ≠ "M"
      ∧ (update_history (update_history init_history "L") "M").count < init_history.size)
    ∧ (update_history (update_history (update_history init_history "L") "M") "L").count = 3 :=
  ⟨by decide,
   ((record_non_adjacent_duplicate init_history "L" "M" (by decide) (by decide) (by decide)
      (by decide) (by decide)).2.2.1 (by decide)).trans (by decide)⟩

/-- C15 as stated fails: at capacity 2 the recordings `L`, `M` fill the store, and the
third recording `L` leaves `count` at 2. -/
theorem record_at_capacity_keeps_count :
    (update_history (update_history hist_cap2 "L") "M").count = 2
    ∧ (update_history (update_history (update_history hist_cap2 "L") "M") "L").count = 2
    ∧ (update_history (update_history (update_history hist_cap2 "L") "M") "L").entries
        = [some "L", some "M"] := by
  decide

/-! ### Set, then expand -/

theorem lookup_local_append_of_not_mem (A B : List (String × String)) (n : String)
    (hA : n ∉ A.map Prod.fst) : lookup_local (A ++ B) n = lookup_local B n := by
  induction A with
  | nil => rfl
  | cons kv A ih =>
    obtain ⟨k, v⟩ := kv
    have hk : k ≠ n := fun e => hA (by simp [e])
    have hA' : n ∉ A.map Prod.fst := fun h => hA (by simp [h])
    simp [lookup_local, hk, ih hA']

theorem lookup_local_after_set (vars : List (String × String)) (n v : String) :
    lookup_local
      (match find_key n vars with
       | some i => set_value vars i v
       | none => vars ++ [(n, v)]) n = some v := by
  cases hfk : find_key n vars with
  | some i =>
    obtain ⟨A, old, B, hvars, hlen, hA⟩ := find_key_eq_some n vars i hfk
    simp only
    rw [hvars, ← hlen, set_value_append, lookup_local_append_of_not_mem A _ n hA]
    simp [lookup_local]
  | none =>
    have hnot := (find_key_eq_none_iff n vars).mp hfk
    simp only
    rw [lookup_local_append_of_not_mem vars _ n hnot]
    simp [lookup_local]

theorem spec_split_echo_var (name : List Char)
    (hnd : ∀ c ∈ name, spec_is_delimiter c = false) :
    spec_split ("echo $".toList ++ name) = ["echo".toList, '$' :: name] := by
  have hall : ∀ x ∈ '$' :: name, (!spec_is_delimiter x) = true := by
    intro x hx
    simp only [List.mem_cons] at hx
    rcases hx with e | e
    · subst e; decide
    · simp [hnd x e]
  have h1 : spec_split ("echo $".toList ++ name)
      = "echo".toList :: spec_split ('$' :: name) := by
    show spec_split ('e' :: ('c' :: 'h' :: 'o' :: ' ' :: '$' :: name)) = _
    rw [spec_split_cons_of_not_delimiter _ _ (by decide)]
    simp [List.takeWhile, List.dropWhile, spec_is_delimiter]
  have h2 : spec_split ('$' :: name) = ['$' :: name] := by
    rw [spec_split_cons_of_not_delimiter _ _ (by decide),
      List.takeWhile_eq_self_iff.mpr hall, List.dropWhile_eq_nil_iff.mpr hall]
    rfl
  rw [h1, h2]

theorem parse_input_echo_var (st : Shell) (name v : String)
    (hnd : ∀ c ∈ name.toList, spec_is_delimiter c = false)
    (hres : variable_sub st name = some v) (hv : v ≠ "") :
    parse_input st ("echo $" ++ name) = ["echo", v] := by
  have htl : ("echo $" ++ name).toList = "echo $".toList ++ name.toList := by
    simp [String.toList]
  have key := parse_loop_eq_spec st (("echo $" ++ name).length + 1) ("echo $" ++ name).toList
    (Nat.lt_succ_self _)
  unfold parse_input
  rw [key, htl, spec_split_echo_var _ hnd]
  have hres' : variable_sub st (String.mk name.toList) = some v := hres
  have h1 : spec_expand (variable_sub st) "echo".toList = some "echo" := rfl
  have h2 : spec_expand (variable_sub st) ('$' :: name.toList) = some v := by
    show (match variable_sub st (String.mk name.toList) with
          | some value => if value = "" then none else some value
          | none => none) = some v
    rw [hres']
    simp [hv]
  rw [List.filterMap_cons, h1, List.filterMap_cons, h2]
  rfl

theorem name_eq_value_ne_bar (n v : String) (hn : n ≠ "") : n ++ "=" ++ v ≠ "|" := by
  intro e
  have := congrArg String.length e
  have hpos := (string_length_pos_iff n).mpr hn
  simp [String.length_append] at this hpos
  have h1 : "=".length = 1 := rfl
  have h2 : "|".length = 1 := rfl
  omega




theorem execute_input_local_set (fuel : Nat) (os : OS) (st : Shell) (n v : String)
    (hn : n ≠ "") (hne : '=' ∉ n.toList) (hv : v ≠ "") (hve : '=' ∉ v.toList)
    (hroom : n ∈ st.shellVars.vars.map Prod.fst ∨ st.shellVars.vars.length < 100) :
    execute_input (fuel + 1) os st ["local", n ++ "=" ++ v]
      = .ok (1, { st with shellVars :=
                    ⟨match find_key n st.shellVars.vars with
                     | some i => set_value st.shellVars.vars i v
                     | none => st.shellVars.vars ++ [(n, v)]⟩ }, []) := by
  have hp : "|" ∉ ["local", n ++ "=" ++ v] := by
    have := name_eq_value_ne_bar n v hn
    simp [Ne.symm this]
  rw [execute_input_no_pipes fuel os st "local" [n ++ "=" ++ v] hp]
  rw [show find_builtin "local" builtin_cmds = some BuiltIn.rsh_local from by decide]
  simp only [run_builtin]
  rw [rsh_local_set st n v hn hne hv hve]
  cases hfk : find_key n st.shellVars.vars with
  | some i => rfl
  | none =>
    have hnot := (find_key_eq_none_iff n _).mp hfk
    have hlen : st.shellVars.vars.length ≠ 100 := by
      rcases hroom with h | h
      · exact absurd h hnot
      · omega
    simp only [hlen, if_false]

/-- C16 (amended): for a non-empty name `NAME` without `=` or delimiter character that
is not set in the environment, and a non-empty value `V` without `=` that is not the
token `|`, in a table that has the key or room for it, the built-in
`local NAME=V` returns, after it the line `echo $NAME` tokenizes to exactly
`["echo", V]`, and dispatching that vector takes the single external command path
with the argument vector `["echo", V]`. -/
theorem local_then_expand (fuel : Nat) (os : OS) (st : Shell) (NAME V : String)
    (hn : NAME ≠ "") (hne : '=' ∉ NAME.toList)
    (hnd : ∀ c ∈ NAME.toList, spec_is_delimiter c = false)
    (henv : getenv st.env NAME = none)
    (hv : V ≠ "") (hve : '=' ∉ V.toList) (hbar : V ≠ "|")
    (hroom : NAME ∈ st.shellVars.vars.map Prod.fst ∨ st.shellVars.vars.length < 100) :
    ∃ st1, execute_input (fuel + 1) os st ["local", NAME ++ "=" ++ V] = .ok (1, st1, [])
      ∧ parse_input st1 ("echo $" ++ NAME) = ["echo", V]
      ∧ execute_input (fuel + 1) os st1 ["echo", V] = run_external os st1 ["echo", V] := by
  refine ⟨_, execute_input_local_set fuel os st NAME V hn hne hv hve hroom, ?_, ?_⟩
  · apply parse_input_echo_var _ NAME V hnd _ hv
    simp only [variable_sub, henv]
    exact lookup_local_after_set st.shellVars.vars NAME V
  · have hp : "|" ∉ ["echo", V] := by
      simp [Ne.symm hbar]
    rw [execute_input_no_pipes fuel os _ "echo" [V] hp]
    rw [show find_builtin "echo" builtin_cmds = none from by decide]

/-- C16 (amended) at `local X=5` followed by `echo $X` at process start. -/
theorem local_then_expand_witness :
    ("X" ≠ "" ∧ '=' ∉ "X".toList ∧ (∀ c ∈ "X".toList, spec_is_delimiter c = false)
      ∧ getenv shell_init.env "X" = none ∧ "5" ≠ "" ∧ '=' ∉ "5".toList ∧ "5" ≠ "|"
      ∧ shell_init.shellVars.vars.length < 100)
    ∧ ∃ st1, execute_input 1 os_ok shell_init ["local", "X=5"] = .ok (1, st1, [])
        ∧ parse_input st1 "echo $X" = ["echo", "5"]
        ∧ execute_input 1 os_ok st1 ["echo", "5"]
            = .ok (0, st1, [Event.fork 0, Event.execvp 0 ["echo", "5"],
                            Event.waitpid (.exited 0)]) := by
  refine ⟨by decide, ?_⟩
  obtain ⟨st1, h1, h2, h3⟩ :=
    local_then_expand 0 os_ok shell_init "X" "5" (by decide) (by decide) (by decide)
      (by decide) (by decide) (by decide) (by decide) (Or.inr (by decide))
  exact ⟨st1, h1, h2, h3.trans rfl⟩

/-- C16 as stated fails: `|` is a non-empty value without `=` or delimiter character;
after `local X=|` the line `echo $X` tokenizes to `["echo", "|"]`, which is dispatched
to the pipeline builder and runs into `strcmp` on the terminating `NULL`, so `echo`
is not invoked as a single external command.  And with an empty name, `local =5`
takes `5` as the name to remove. -/
theorem local_bar_is_a_pipeline :
    execute_input 1 os_ok shell_init ["local", "X=|"] = .ok (1, shell_bar, [])
    ∧ parse_input shell_bar "echo $X" = ["echo", "|"]
    ∧ execute_input 1 os_ok shell_bar ["echo", "|"] = .undef
    ∧ execute_input 1 os_ok shell_init ["local", "=5"] = .undef := by
  decide

/-! ### Export -/

/-- C17 at the failing inputs: `export FOO` (no `=`) reports nothing and removes `FOO`
from the environment; `export =value` (no name) reports nothing and removes the
variable named `value`. -/
theorem export_without_eq_unsets :
    execute_input 1 os_ok shell_foo ["export", "FOO"]
      = .ok (1, { shell_foo with env := [("value", "2")] }, [])
    ∧ execute_input 1 os_ok shell_foo ["export", "=value"]
      = .ok (1, { shell_foo with env := [("FOO", "1")] }, []) := by
  decide

/-! ### Single external command -/

theorem wait_loop_stops (stops : List Nat) (w : WStatus) (tail : List WStatus)
    (hterm : ∀ sig, w ≠ .stopped sig) :
    wait_loop (stops.map WStatus.stopped ++ w :: tail)
      = some (stops.map (fun sig => Event.waitpid (.stopped sig)) ++ [Event.waitpid w]) := by
  induction stops with
  | nil =>
    cases w with
    | exited c => rfl
    | signaled s => rfl
    | stopped s => exact absurd rfl (hterm s)
  | cons s rest ih =>
    show (wait_loop (rest.map WStatus.stopped ++ w :: tail)).map
        (fun evs => Event.waitpid (.stopped s) :: evs) = _
    rw [ih]
    rfl

/-- C18 (amended): for every non-empty argument vector without a `|` token whose first
token is not a built-in name, when `waitpid` reports the child stopped some number of
times and then exited or killed by a signal, the dispatcher forks one child that
calls `execvp` with the vector, calls `waitpid` again after each stopped report,
stops waiting at the first report of termination, and returns 0 in an unchanged
state, whatever the status of the child. -/
theorem external_returns_zero (fuel : Nat) (os : OS) (st : Shell) (a0 : String)
    (rest : List String) (stops : List Nat) (w : WStatus) (tail : List WStatus)
    (hb : a0 ∉ builtin_names) (hp : "|" ∉ a0 :: rest)
    (hw : os.wstatus = stops.map WStatus.stopped ++ w :: tail)
    (hterm : ∀ sig, w ≠ .stopped sig) :
    execute_input (fuel + 1) os st (a0 :: rest)
      = .ok (0, st,
          [Event.fork 0, Event.execvp 0 (a0 :: rest)]
            ++ (stops.map (fun sig => Event.waitpid (.stopped sig)) ++ [Event.waitpid w])) := by
  have hwl : wait_loop os.wstatus
      = some (stops.map (fun sig => Event.waitpid (.stopped sig)) ++ [Event.waitpid w]) := by
    rw [hw]
    exact wait_loop_stops stops w tail hterm
  exact execute_input_external fuel os st a0 rest _ hb hp hwl

/-- C18 (amended) at `false` with a child that is stopped once and then exits with 3. -/
theorem external_returns_zero_witness :
    ("false" ∉ builtin_names ∧ "|" ∉ ["false"]
      ∧ os_exit3.wstatus = [19].map WStatus.stopped ++ WStatus.exited 3 :: []
      ∧ ∀ sig, WStatus.exited 3 ≠ .stopped sig)
    ∧ execute_input 1 os_exit3 shell_init ["false"]
        = .ok (0, shell_init,
            [Event.fork 0, Event.execvp 0 ["false"], Event.waitpid (.stopped 19),
             Event.waitpid (.exited 3)]) :=
  ⟨⟨by decide, by decide, rfl, fun _ h => WStatus.noConfusion h⟩,
   external_returns_zero 0 os_exit3 shell_init "false" [] [19] (.exited 3) []
     (by decide) (by decide) rfl (fun _ h => WStatus.noConfusion h)⟩

/-- C18 as stated fails: the child of `false` terminates with status 3 and the
dispatcher returns 0. -/
theorem external_status_not_returned :
    ∃ evs, execute_input 1 os_exit3 shell_init ["false"] = .ok (0, shell_init, evs)
      ∧ Event.waitpid (.exited 3) ∈ evs :=
  ⟨_, rfl, by decide⟩

/-! ### Removing an absent local variable -/

/-- C20 at the failing input: at process start `Y` is not a key of the table, and
`local Y=` runs past the removal loop into `strdup(NULL)`. -/
theorem local_remove_absent_undefined :
    find_key "Y" shell_init.shellVars.vars = none
    ∧ rsh_local shell_init ["local", "Y="] = .undef
    ∧ execute_input 1 os_ok shell_init ["local", "Y="] = .undef
    ∧ main_rsh_iter 1 os_ok shell_init "local Y=\n" = .undef := by
  decide

/-! ### Pipeline descriptors -/

theorem child_events_eq_spec (p i : Nat) (seg : List String) :
    Event.fork i :: child_events p i seg = spec_stage_ops p (i, seg) := by
  have e1 : (i - 1) * 2 = 2 * (i - 1) := Nat.mul_comm _ _
  have e2 : i * 2 + 1 = 2 * i + 1 := by omega
  unfold child_events spec_stage_ops read_end write_end
  simp only [e1, e2]
  by_cases h0 : i = 0
  · subst h0; simp
  · have : 0 < i := by omega
    simp [h0, this]

theorem stage_events_eq_flatMap (p : Nat) : ∀ (rem : List (List String)) (i : Nat),
    stage_events p i rem
      = ((List.range' i rem.length).zip rem).flatMap (spec_stage_ops p) := by
  intro rem
  induction rem with
  | nil => intro i; rfl
  | cons s rest ih =>
    intro i
    rw [stage_events, ih (i + 1), child_events_eq_spec]
    simp [List.range'_succ, List.flatMap_cons]

/-- Descriptor law within the stage buffer: for every argument vector with `p` tokens
equal to `|` whose `|`-delimited segments are all non-empty and have at most 255
tokens, the recorded sequence of operations of `execute_pipes` is: the `p` pipe creations; then, for each
stage `i = 0 .. p` in order, the fork of child `i`, its redirection of standard input
to the read end of pipe `i - 1` exactly when `i > 0`, its redirection of standard
output to the write end of pipe `i` exactly when `i < p`, its closing of all `2 * p`
descriptors and its `execvp` of the stage; then the parent's closing of all `2 * p`
descriptors; then exactly `p + 1` waits. -/
theorem pipeline_descriptor_law (args : List String) (p : Nat)
    (hcount : args.count "|" = p)
    (hseg : ∀ seg ∈ args.splitOn "|", seg ≠ [] ∧ seg.length < stage_slots) :
    execute_pipes args p
      = .ok ((List.range p).map Event.pipe
              ++ ((List.range (p + 1)).zip (args.splitOn "|")).flatMap (spec_stage_ops p)
              ++ (List.range (2 * p)).map (fun fd => Event.close none fd)
              ++ List.replicate (p + 1) Event.wait)
    ∧ (args.splitOn "|").length = p + 1 := by
  have hlen : (args.splitOn "|").length = p + 1 := by rw [splitOn_length, hcount]
  refine ⟨?_, hlen⟩
  rw [execute_pipes_stages args p hcount hseg, stage_events_eq_flatMap, hlen]
  simp only [List.range_eq_range']

/-- The operations of `cmd1 | cmd2 | cmd3`: 2 pipes (4 descriptors), 3 children, all 4
descriptors closed in each child and in the parent, 3 waits. -/
theorem pipeline_descriptor_law_witness :
    ((["cmd1", "|", "cmd2", "|", "cmd3"] : List String).count "|" = 2
      ∧ ∀ seg ∈ (["cmd1", "|", "cmd2", "|", "cmd3"] : List String).splitOn "|",
          seg ≠ [] ∧ seg.length < stage_slots)
    ∧ execute_pipes ["cmd1", "|", "cmd2", "|", "cmd3"] 2
        = .ok [Event.pipe 0, Event.pipe 1,
               Event.fork 0, Event.dup2 0 1 1,
               Event.close (some 0) 0, Event.close (some 0) 1, Event.close (some 0) 2,
               Event.close (some 0) 3, Event.execvp 0 ["cmd1"],
               Event.fork 1, Event.dup2 1 0 0, Event.dup2 1 3 1,
               Event.close (some 1) 0, Event.close (some 1) 1, Event.close (some 1) 2,
               Event.close (some 1) 3, Event.execvp 1 ["cmd2"],
               Event.fork 2, Event.dup2 2 2 0,
               Event.close (some 2) 0, Event.close (some 2) 1, Event.close (some 2) 2,
               Event.close (some 2) 3, Event.execvp 2 ["cmd3"],
               Event.close none 0, Event.close none 1, Event.close none 2,
               Event.close none 3,
               Event.wait, Event.wait, Event.wait] :=
  ⟨by decide,
   (pipeline_descriptor_law ["cmd1", "|", "cmd2", "|", "cmd3"] 2 (by decide)
      (by decide)).1.trans (by decide)⟩

theorem not_mem_replicate_a (n : Nat) : "|" ∉ List.replicate n "a" := by
  intro hm
  exact absurd (List.eq_of_mem_replicate hm) (by decide)

/-! ### Pipeline builder: a stage longer than the stage buffer -/

/-- Collecting a stage with more tokens than the stage buffer has slots runs into the
write `arg[k++] = ..` with `k = 256`. -/
theorem collect_stage_overflow (rest : List String) :
    ∀ (s acc pre : List String) (fuel : Nat), "|" ∉ s →
      stage_slots < acc.length + s.length → acc.length ≤ stage_slots →
      stage_slots - acc.length < fuel →
      collect_stage (pre ++ s ++ rest) fuel pre.length acc = .undef := by
  intro s
  induction s with
  | nil =>
    intro acc pre fuel _ hlen hacc _
    simp only [List.length_nil, Nat.add_zero] at hlen
    omega
  | cons x xs ih =>
    intro acc pre fuel hmem hlen hacc hf
    obtain ⟨f, rfl⟩ : ∃ f, fuel = f + 1 := ⟨fuel - 1, by omega⟩
    have hx : x ≠ "|" := fun h => hmem (by simp [h])
    have hxs : "|" ∉ xs := fun h => hmem (by simp [h])
    have hget : (pre ++ (x :: xs) ++ rest)[pre.length]? = some x := by
      rw [List.append_assoc, List.cons_append, getElem?_length_append_cons]
    rw [collect_stage, hget]
    simp only [hx, if_false]
    by_cases hfull : stage_slots ≤ acc.length
    · rw [if_pos hfull]
    · rw [if_neg hfull]
      simp only [List.length_cons] at hlen
      have hxs_pos : 0 < xs.length := by omega
      have hnext : pre.length + 1 < (pre ++ (x :: xs) ++ rest).length := by
        simp only [List.length_append, List.length_cons]
        omega
      rw [if_pos hnext]
      have e : pre ++ (x :: xs) ++ rest = (pre ++ [x]) ++ xs ++ rest := by simp
      have e2 : pre.length + 1 = (pre ++ [x]).length := by simp
      rw [e, e2]
      apply ih (acc ++ [x]) (pre ++ [x]) f hxs
      · simp only [List.length_append, List.length_singleton]; omega
      · simp only [List.length_append, List.length_singleton]; omega
      · simp only [List.length_append, List.length_singleton]; omega

theorem replicate_a_segments (n : Nat) (front back : List String)
    (hf : "|" ∉ front) (hb : "|" ∉ back) :
    (front ++ "|" :: (List.replicate n "a" ++ "|" :: back)).splitOn "|"
      = [front, List.replicate n "a", back] := by
  have h : front ++ "|" :: (List.replicate n "a" ++ "|" :: back)
      = ["|"].intercalate [front, List.replicate n "a", back] := by
    rw [intercalate_cons_cons, intercalate_cons_cons, intercalate_single]
  rw [h]
  apply List.splitOn_intercalate
  · intro l hl
    rcases List.mem_cons.mp hl with e | hl
    · rw [e]; exact hf
    · rcases List.mem_cons.mp hl with e | hl
      · rw [e]; exact not_mem_replicate_a n
      · rcases List.mem_cons.mp hl with e | hl
        · rw [e]; exact hb
        · cases hl
  · exact List.cons_ne_nil _ _

theorem replicate_a_first_segments (n : Nat) (back : List String) (hb : "|" ∉ back) :
    (List.replicate n "a" ++ "|" :: back).splitOn "|" = [List.replicate n "a", back] := by
  have h : List.replicate n "a" ++ "|" :: back
      = ["|"].intercalate [List.replicate n "a", back] := by
    rw [intercalate_cons_cons, intercalate_single]
  rw [h]
  apply List.splitOn_intercalate
  · intro l hl
    rcases List.mem_cons.mp hl with e | hl
    · rw [e]; exact not_mem_replicate_a n
    · rcases List.mem_cons.mp hl with e | hl
      · rw [e]; exact hb
      · cases hl
  · exact List.cons_ne_nil _ _

theorem replicate_a_ne_nil (n : Nat) (hn : 0 < n) : List.replicate n "a" ≠ [] := by
  intro h
  have := congrArg List.length h
  rw [List.length_replicate] at this
  simp only [List.length_nil] at this
  omega

/-- A first stage of more than 256 tokens makes `execute_pipes` undefined, before the
first fork. -/
theorem execute_pipes_first_stage_overflow (n p : Nat) (back : List String)
    (hn : stage_slots < n) :
    execute_pipes (List.replicate n "a" ++ "|" :: back) p = .undef := by
  have hlen : (List.replicate n "a").length = n := List.length_replicate _ _
  have hcol := collect_stage_overflow ("|" :: back) (List.replicate n "a") [] []
    ((List.replicate n "a" ++ "|" :: back).length + 1) (not_mem_replicate_a n)
    (by rw [hlen]; simpa using hn) (Nat.zero_le _)
    (by
      simp only [List.length_nil, List.length_append, hlen, List.length_cons]
      omega)
  simp only [List.nil_append, List.length_nil] at hcol
  have hcond : 0 < (List.replicate n "a" ++ "|" :: back).length ∧ 0 ≤ p := by
    simp only [List.length_append, hlen, List.length_cons]
    omega
  have hloop : stage_loop (List.replicate n "a" ++ "|" :: back) p (p + 1 + 1) 0 0
      = .undef := by
    rw [stage_loop, if_pos hcond, hcol]
  unfold execute_pipes
  rw [show p + 2 = p + 1 + 1 from rfl, hloop]

/-- A second stage of more than 256 tokens makes `execute_pipes` undefined, after the
fork of the first child and before the fork of the second. -/
theorem execute_pipes_second_stage_overflow (n p : Nat) (c1 : String) (back : List String)
    (hc : c1 ≠ "|") (hn : stage_slots < n) (hp : 1 ≤ p) :
    execute_pipes ([c1, "|"] ++ (List.replicate n "a" ++ "|" :: back)) p = .undef := by
  have hlen : (List.replicate n "a").length = n := List.length_replicate _ _
  have hargs_len : ([c1, "|"] ++ (List.replicate n "a" ++ "|" :: back)).length
      = n + back.length + 3 := by
    simp only [List.length_append, hlen, List.length_cons, List.length_nil]
    omega
  have hfirst := collect_stage_sep (List.replicate n "a" ++ "|" :: back) [c1] [] []
    (([c1, "|"] ++ (List.replicate n "a" ++ "|" :: back)).length + 1)
    (by simp [Ne.symm hc]) (by simp [stage_slots]) (by rw [hargs_len]; simp)
  have e1 : ([] : List String) ++ [c1] ++ "|" :: (List.replicate n "a" ++ "|" :: back)
      = [c1, "|"] ++ (List.replicate n "a" ++ "|" :: back) := rfl
  rw [e1] at hfirst
  simp only [List.length_nil, List.nil_append, List.length_singleton, Nat.zero_add] at hfirst
  have hsecond := collect_stage_overflow ("|" :: back) (List.replicate n "a") [] [c1, "|"]
    (([c1, "|"] ++ (List.replicate n "a" ++ "|" :: back)).length + 1) (not_mem_replicate_a n)
    (by rw [hlen]; simpa using hn) (Nat.zero_le _)
    (by rw [hargs_len]; simp only [List.length_nil]; omega)
  have e2 : [c1, "|"] ++ List.replicate n "a" ++ "|" :: back
      = [c1, "|"] ++ (List.replicate n "a" ++ "|" :: back) := by
    rw [List.append_assoc]
  rw [e2] at hsecond
  have hpre : ([c1, "|"] : List String).length = 1 + 1 := rfl
  rw [hpre] at hsecond
  have hcond0 : 0 < ([c1, "|"] ++ (List.replicate n "a" ++ "|" :: back)).length ∧ 0 ≤ p := by
    rw [hargs_len]; omega
  have hcond1 : 0 + 1 < ([c1, "|"] ++ (List.replicate n "a" ++ "|" :: back)).length
      ∧ 0 + 1 ≤ p := by
    rw [hargs_len]; omega
  have hsmall : ¬ stage_slots ≤ ([c1] : List String).length := by simp [stage_slots]
  obtain ⟨q, rfl⟩ : ∃ q, p = q + 1 := ⟨p - 1, by omega⟩
  have hinner : stage_loop ([c1, "|"] ++ (List.replicate n "a" ++ "|" :: back)) (q + 1)
      (q + 1 + 1) (0 + 1) (1 + 1) = .undef := by
    rw [stage_loop, if_pos hcond1, hsecond]
  have hloop : stage_loop ([c1, "|"] ++ (List.replicate n "a" ++ "|" :: back)) (q + 1)
      (q + 1 + 1 + 1) 0 0 = .undef := by
    rw [stage_loop, if_pos hcond0, hfirst]
    simp only
    rw [if_neg hsmall, hinner]
  unfold execute_pipes
  rw [show q + 1 + 2 = q + 1 + 1 + 1 from rfl, hloop]

/-- C5 at the failing input: the vector `a a ... a | b` with 1000000 tokens `a` has one
token `|` and the two non-empty segments `a a ... a` and `b`, so the stage buffer
`arg[256]` is written at index 256 and beyond while the first stage is collected:
`execute_pipes` is undefined there, before any child is forked. -/
theorem execute_pipes_huge_stage :
    huge_stage_args.count "|" = 1
    ∧ huge_stage_args.splitOn "|" = [List.replicate 1000000 "a", ["b"]]
    ∧ (∀ seg ∈ huge_stage_args.splitOn "|", seg ≠ [])
    ∧ execute_pipes huge_stage_args 1 = .undef := by
  have hseg : huge_stage_args.splitOn "|" = [List.replicate 1000000 "a", ["b"]] :=
    replicate_a_first_segments 1000000 ["b"] (by decide)
  have hlen := splitOn_length huge_stage_args
  rw [hseg] at hlen
  refine ⟨?_, hseg, ?_, ?_⟩
  · simp only [List.length_cons, List.length_nil] at hlen
    omega
  · intro seg hmem
    rw [hseg] at hmem
    rcases List.mem_cons.mp hmem with e | hmem
    · rw [e]; exact replicate_a_ne_nil 1000000 (by omega)
    · rcases List.mem_cons.mp hmem with e | hmem
      · rw [e]; exact List.cons_ne_nil _ _
      · cases hmem
  · exact execute_pipes_first_stage_overflow 1000000 1 ["b"] (by simp [stage_slots])

/-- C19 at the failing input: the pipeline `cmd1 | a a ... a | cmd3` with 1000000 tokens
`a` has two tokens `|` and three non-empty stages; after the two pipes are created and
the first child is forked, the stage buffer `arg[256]` is written at index 256 and
beyond while the second stage is collected: `execute_pipes` is undefined there, and no
sequence of operations with three forks, the parent closing the descriptors and three
waits is produced. -/
theorem pipeline_huge_stage :
    huge_middle_args.count "|" = 2
    ∧ huge_middle_args.splitOn "|" = [["cmd1"], List.replicate 1000000 "a", ["cmd3"]]
    ∧ (∀ seg ∈ huge_middle_args.splitOn "|", seg ≠ [])
    ∧ execute_pipes huge_middle_args 2 = .undef := by
  have hseg : huge_middle_args.splitOn "|"
      = [["cmd1"], List.replicate 1000000 "a", ["cmd3"]] :=
    replicate_a_segments 1000000 ["cmd1"] ["cmd3"] (by decide) (by decide)
  have hlen := splitOn_length huge_middle_args
  rw [hseg] at hlen
  refine ⟨?_, hseg, ?_, ?_⟩
  · simp only [List.length_cons, List.length_nil] at hlen
    omega
  · intro seg hmem
    rw [hseg] at hmem
    rcases List.mem_cons.mp hmem with e | hmem
    · rw [e]; exact List.cons_ne_nil _ _
    · rcases List.mem_cons.mp hmem with e | hmem
      · rw [e]; exact replicate_a_ne_nil 1000000 (by omega)
      · rcases List.mem_cons.mp hmem with e | hmem
        · rw [e]; exact List.cons_ne_nil _ _
        · cases hmem
  · exact execute_pipes_second_stage_overflow 1000000 2 "cmd1" ["cmd3"] (by decide)
      (by simp [stage_slots]) (by omega)

end Rsh
